import Mathlib

/-!
Verification of the AVLTreeCLI repository: a shallow embedding of the AVL
tree engine (`src/avltreecli/avl_tree.py`) and of the balancing helpers of
the command-line tool (`src/avltreecli/cli.py`), together with proofs and
refutations of the specified properties.

Python `Node` objects become an inductive `Tree`; `None` becomes `Tree.nil`.
The cached `height` attribute is stored in each constructor.  Python
exceptions (`ValueError` for duplicate insert / not-found delete, and the
`AttributeError` that a rotation on a node lacking the required child would
raise) are modelled with an `Except Err` result.  A raising call leaves the
Python tree unchanged because every mutation (`node.left = ...`,
`node.height = ...`) happens only after the inner recursive call has
returned normally; the functional embedding mirrors this by returning the
error without producing a tree.
-/

namespace AVLTreeCLI

/-- Error values: `dup` models `ValueError("Duplicate values...")` raised by
`AVLTree._insert`, `notFound` models `ValueError("Value ... not found ...")`
raised by `AVLTree._delete`, and `attrError` models the `AttributeError`
that `left_rotate`/`right_rotate` (or an attribute access such as
`node.left.value`) would raise when the required child is `None`. -/
inductive Err where
  | dup : Err
  | notFound : Err
  | attrError : Err
deriving DecidableEq, Repr

/-- A binary tree with cached heights: Python `Optional[Node]` where a
`Node` holds `value`, `left`, `right`, `height` and `None` is `nil`. -/
inductive Tree where
  | nil : Tree
  | node (value : Int) (left : Tree) (right : Tree) (height : Int) : Tree
deriving DecidableEq, Repr

namespace Tree

/-- AVLTree.get_height: `node.height if node else 0`. -/
def get_height : Tree → Int
  | .nil => 0
  | .node _ _ _ h => h

/-- AVLTree.get_balance: `height(node.left) - height(node.right)` for a
node, `0` for `None`. -/
def get_balance : Tree → Int
  | .nil => 0
  | .node _ l r _ => get_height l - get_height r

/-- Value stored at the root of a non-empty tree (Python `node.value`;
never used on `nil`, where the junk value `0` stands in). -/
def val : Tree → Int
  | .nil => 0
  | .node v _ _ _ => v

/-- Left child (Python `node.left`; `nil` input is never used). -/
def left : Tree → Tree
  | .nil => .nil
  | .node _ l _ _ => l

/-- Right child (Python `node.right`; `nil` input is never used). -/
def right : Tree → Tree
  | .nil => .nil
  | .node _ _ r _ => r

/-- AVLTree.left_rotate: `y = z.right; T2 = y.left; y.left = z;
z.right = T2`, then recompute `z.height` first and `y.height` second.  When
`z` is `None` or `z.right` is `None` the Python code raises
`AttributeError` (accessing `.right`/`.left` on `None`). -/
def left_rotate : Tree → Except Err Tree
  | .node zv zl (.node yv yl yr _) _ =>
    let z : Tree := .node zv zl yl (1 + max (get_height zl) (get_height yl))
    .ok (.node yv z yr (1 + max (get_height z) (get_height yr)))
  | _ => .error .attrError

/-- AVLTree.right_rotate: `y = z.left; T3 = y.right; y.right = z;
z.left = T3`, then recompute `z.height` first and `y.height` second.
Raises `AttributeError` when `z` or `z.left` is `None`. -/
def right_rotate : Tree → Except Err Tree
  | .node zv (.node yv yl yr _) zr _ =>
    let z : Tree := .node zv yr zr (1 + max (get_height yr) (get_height zr))
    .ok (.node yv yl z (1 + max (get_height yl) (get_height z)))
  | _ => .error .attrError

/-- Rebalancing step at the end of `AVLTree._insert`, applied to the node
whose height has just been recomputed: the four cases Left-Left,
Right-Right, Left-Right, Right-Left are selected by the sign of the balance
and by comparing the inserted `value` with the relevant child's value, in
the source's order of tests.  With `balance > 1` Python evaluates
`node.left.value`, raising `AttributeError` when `node.left` is `None`
(and symmetrically on the right). -/
def insert_rebalance (v : Int) (l r : Tree) (value : Int) : Except Err Tree :=
  let n : Tree := .node v l r (1 + max (get_height l) (get_height r))
  let balance := get_balance n
  if 1 < balance then
    match l with
    | .nil => .error .attrError
    | .node lv _ _ _ =>
      if value < lv then right_rotate n
      else if lv < value then do
        let l' ← left_rotate l
        right_rotate (.node v l' r (1 + max (get_height l) (get_height r)))
      else .ok n
  else if balance < -1 then
    match r with
    | .nil => .error .attrError
    | .node rv _ _ _ =>
      if rv < value then left_rotate n
      else if value < rv then do
        let r' ← right_rotate r
        left_rotate (.node v l r' (1 + max (get_height l) (get_height r)))
      else .ok n
  else .ok n

/-- AVLTree._insert: recursive BST descent creating a leaf of height 1 at a
`None` slot, raising `ValueError` on a duplicate, then height update and
rebalancing on the way back up. -/
def insertRec : Tree → Int → Except Err Tree
  | .nil, value => .ok (.node value .nil .nil 1)
  | .node v l r _, value =>
    if value < v then do
      let l' ← insertRec l value
      insert_rebalance v l' r value
    else if v < value then do
      let r' ← insertRec r value
      insert_rebalance v l r' value
    else .error .dup

/-- AVLTree.get_min_value_node: follow `left` links to the leftmost node.
The Python function is only called with a non-`None` argument; on `nil`
this embedding returns `nil` (the Python call would raise). -/
def get_min_value_node : Tree → Tree
  | .nil => .nil
  | .node v .nil r h => .node v .nil r h
  | .node _ (.node lv ll lr lh) _ _ => get_min_value_node (.node lv ll lr lh)

/-- Rebalancing step at the end of `AVLTree._delete`: same four cases, but
selected by the child's balance factor instead of a value comparison. -/
def delete_rebalance (v : Int) (l r : Tree) : Except Err Tree :=
  let n : Tree := .node v l r (1 + max (get_height l) (get_height r))
  let balance := get_balance n
  if 1 < balance then
    if 0 ≤ get_balance l then right_rotate n
    else do
      let l' ← left_rotate l
      right_rotate (.node v l' r (1 + max (get_height l) (get_height r)))
  else if balance < -1 then
    if get_balance r ≤ 0 then left_rotate n
    else do
      let r' ← right_rotate r
      left_rotate (.node v l r' (1 + max (get_height l) (get_height r)))
  else .ok n

/-- AVLTree._delete: BST descent raising `ValueError` when the value is
absent; a found node with fewer than two children is spliced out without
further bookkeeping, a node with two children receives its in-order
successor's value and the successor is deleted from the right subtree;
then height update and rebalancing on the way back up. -/
def deleteRec : Tree → Int → Except Err Tree
  | .nil, _ => .error .notFound
  | .node v l r _, value =>
    if value < v then do
      let l' ← deleteRec l value
      delete_rebalance v l' r
    else if v < value then do
      let r' ← deleteRec r value
      delete_rebalance v l r'
    else
      match l, r with
      | .nil, _ => .ok r
      | .node lv ll lr lh, .nil => .ok (.node lv ll lr lh)
      | .node lv ll lr lh, .node rv rl rr rh => do
        let temp := get_min_value_node (.node rv rl rr rh)
        let r' ← deleteRec (.node rv rl rr rh) temp.val
        delete_rebalance temp.val (.node lv ll lr lh) r'

/-- AVLTree._search: BST descent returning the node holding `value`, or
`none`. -/
def search : Tree → Int → Option Tree
  | .nil, _ => none
  | .node v l r h, value =>
    if v = value then some (.node v l r h)
    else if value < v then search l value
    else search r value

/-- AVLTree._inorder_traversal: left, visit, right. -/
def inorder : Tree → List Int
  | .nil => []
  | .node v l r _ => inorder l ++ v :: inorder r

/-- AVLTree._preorder_traversal: visit, left, right. -/
def preorder : Tree → List Int
  | .nil => []
  | .node v l r _ => v :: (preorder l ++ preorder r)

/-- AVLTree._postorder_traversal: left, right, visit. -/
def postorder : Tree → List Int
  | .nil => []
  | .node v l r _ => postorder l ++ postorder r ++ [v]

end Tree

open Tree

/-- Direction token of a rotation command (`"left"` / `"right"`). -/
inductive Dir where
  | left : Dir
  | right : Dir
deriving DecidableEq, Repr

/-- Tree-mutating CLI commands: `a <v>`, `d <v>`, `rl <v>`, `rr <v>`. -/
inductive Cmd where
  | add (v : Int) : Cmd
  | del (v : Int) : Cmd
  | rl (v : Int) : Cmd
  | rr (v : Int) : Cmd
deriving DecidableEq, Repr

/-- Engine-level operations: direct calls of `AVLTree.insert` and
`AVLTree.delete`. -/
inductive EngineOp where
  | ins (v : Int) : EngineOp
  | del (v : Int) : EngineOp
deriving DecidableEq, Repr

/-- AVLTree.insert / AVLTree.delete at the tree level: `self.root =
self._insert(self.root, value)`.  When the recursive helper raises, the
assignment to `self.root` is skipped and no node was mutated (every
mutation in `_insert`/`_delete` happens after its recursive call has
returned), so the tree is unchanged. -/
def engine_step (t : Tree) : EngineOp → Tree
  | .ins v => match insertRec t v with | .ok t' => t' | .error _ => t
  | .del v => match deleteRec t v with | .ok t' => t' | .error _ => t

/-- Folding engine operations from the initial empty tree. -/
def engine_run (ops : List EngineOp) : Tree :=
  ops.foldl engine_step .nil

/-- AVLTreeCLI._insert_manual: BST insert without rebalancing (duplicates
are routed right by the `else` branch), updating heights on the way up. -/
def insert_manual : Tree → Int → Tree
  | .nil, value => .node value .nil .nil 1
  | .node v l r _, value =>
    if value < v then
      let l' := insert_manual l value
      .node v l' r (1 + max (get_height l') (get_height r))
    else
      let r' := insert_manual r value
      .node v l r' (1 + max (get_height l) (get_height r'))

/-- AVLTreeCLI._delete_manual: BST delete without rebalancing (an absent
value is silently ignored), updating heights on the way up. -/
def delete_manual : Tree → Int → Tree
  | .nil, _ => .nil
  | .node v l r _, value =>
    if value < v then
      let l' := delete_manual l value
      .node v l' r (1 + max (get_height l') (get_height r))
    else if v < value then
      let r' := delete_manual r value
      .node v l r' (1 + max (get_height l) (get_height r'))
    else
      match l, r with
      | .nil, _ => r
      | .node lv ll lr lh, .nil => .node lv ll lr lh
      | .node lv ll lr lh, .node rv rl rr rh =>
        let temp := get_min_value_node (.node rv rl rr rh)
        let r' := delete_manual (.node rv rl rr rh) temp.val
        .node temp.val (.node lv ll lr lh) r'
          (1 + max (get_height (.node lv ll lr lh)) (get_height r'))

/-- AVLTreeCLI._find_unbalanced_node: post-order search (left subtree,
then right subtree, then the node itself) for the first node with
`abs(balance) > 1`; `none` when every node is balanced. -/
def find_unbalanced_node : Tree → Option Tree
  | .nil => none
  | .node v l r h =>
    match find_unbalanced_node l with
    | some n => some n
    | none =>
      match find_unbalanced_node r with
      | some n => some n
      | none =>
        if 1 < |get_balance (.node v l r h)| then some (.node v l r h)
        else none

/-- AVLTreeCLI._update_all_heights: recompute every node's height in
post-order. -/
def update_all_heights : Tree → Tree
  | .nil => .nil
  | .node v l r _ =>
    let l' := update_all_heights l
    let r' := update_all_heights r
    .node v l' r' (1 + max (get_height l') (get_height r'))

/-- Rotation selected by the four balance-factor cases, shared by
`AVLTreeCLI._balance_node` and the rotation logic of
`AVLTreeCLI._balance_node_and_update_root_with_steps` (the `_with_steps`
variant performs the same rotations, interleaved with display only). -/
def balance_node (t : Tree) : Except Err Tree :=
  match t with
  | .nil => .ok .nil
  | .node v l r h =>
    let balance := get_balance (.node v l r h)
    if 1 < balance then
      if get_balance l < 0 then do
        let l' ← left_rotate l
        right_rotate (.node v l' r h)
      else right_rotate (.node v l r h)
    else if balance < -1 then
      if 0 < get_balance r then do
        let r' ← right_rotate r
        left_rotate (.node v l r' h)
      else left_rotate (.node v l r h)
    else .ok (.node v l r h)

/-- Parent search and child-slot relink shared by
`AVLTreeCLI._balance_node_and_update_root_with_steps` and
`AVLTreeCLI._rotate_node_and_update_parent`: walk down from the root
(`current = current.left` when `target.value < current.value`, else
`current = current.right`) until the next step would reach `target` (or
fall off the tree), then overwrite the parent's `left` slot when
`parent.left == target` and its `right` slot otherwise. -/
def relink_by_descent (t : Tree) (target rotated : Tree) : Tree :=
  match t with
  | .nil => .nil
  | .node v l r h =>
    let child := if target.val < v then l else r
    if child = target ∨ child = .nil then
      if l = target then .node v rotated r h else .node v l rotated h
    else if target.val < v then
      .node v (relink_by_descent l target rotated) r h
    else
      .node v l (relink_by_descent r target rotated) h

/-- AVLTreeCLI._balance_node_and_update_root_with_steps, display stripped:
rotate `target` by the balance-factor cases and install the result at
`target`'s position (at the root when `target` is the root, otherwise in
the parent slot found by `relink_by_descent`).  Ancestor heights are NOT
recomputed. -/
def balance_node_and_update_root (t target : Tree) : Except Err Tree := do
  let balanced ← balance_node target
  if t = target then .ok balanced
  else .ok (relink_by_descent t target balanced)

/-- AVLTreeCLI._balance_tree_with_steps: repeatedly find the first
unbalanced node in post-order and rotate it, until none remains.  The
`while True` loop is given explicit fuel; `none` means the fuel ran out
before the loop exited. -/
def balance_tree_with_steps (t : Tree) : Nat → Except Err (Option Tree)
  | 0 => .ok none
  | n + 1 =>
    match find_unbalanced_node t with
    | none => .ok (some t)
    | some target => do
      let t' ← balance_node_and_update_root t target
      balance_tree_with_steps t' n

/-- AVLTreeCLI._insert_with_auto_balance: manual insert followed by the
step-by-step balancing loop. -/
def insert_with_auto_balance (t : Tree) (v : Int) (fuel : Nat) :
    Except Err (Option Tree) :=
  balance_tree_with_steps (insert_manual t v) fuel

/-- AVLTreeCLI._delete_with_auto_balance: manual delete followed by the
step-by-step balancing loop. -/
def delete_with_auto_balance (t : Tree) (v : Int) (fuel : Nat) :
    Except Err (Option Tree) :=
  balance_tree_with_steps (delete_manual t v) fuel

/-- Helper dispatching `left_rotate` / `right_rotate` on a direction
token. -/
def rotate_dir : Dir → Tree → Except Err Tree
  | .left, t => left_rotate t
  | .right, t => right_rotate t

/-- AVLTreeCLI._rotate_node_and_update_parent: find the parent by descent
from the root, rotate the node, and overwrite the parent's child slot
(`left` when `parent.left == node`, else `right`). -/
def rotate_node_and_update_parent (t target : Tree) (dir : Dir) :
    Except Err Tree := do
  let rotated ← rotate_dir dir target
  .ok (relink_by_descent t target rotated)

/-- AVLTreeCLI._find_unbalanced_ancestor_needing_rotation: walk from the
root towards `target` (by value comparison); at each node with
`abs(balance) > 1`, return it when the requested rotation on `target` is
the first half of the double rotation it needs (Left-Right when the
ancestor is left-heavy and `target` is its left child, Right-Left
symmetrically), return `none` when the slot matches but the child balance
does not; stop at `target`'s value. -/
def find_unbalanced_ancestor_needing_rotation :
    Tree → Tree → Dir → Option Tree
  | .nil, _, _ => none
  | .node v l r h, target, dir =>
    let cur : Tree := .node v l r h
    let balance := get_balance cur
    if 1 < balance ∧ dir = .left ∧ l = target then
      if get_balance l < 0 then some cur else none
    else if balance < -1 ∧ dir = .right ∧ r = target then
      if 0 < get_balance r then some cur else none
    else if target.val < v then
      find_unbalanced_ancestor_needing_rotation l target dir
    else if v < target.val then
      find_unbalanced_ancestor_needing_rotation r target dir
    else none

/-- AVLTreeCLI._is_rotation_needed: accept the rotation when the node at
`value` is itself unbalanced and the direction matches its single-rotation
case, or when the rotation is the validated first half of a double
rotation needed by an unbalanced ancestor. -/
def is_rotation_needed (t : Tree) (value : Int) (dir : Dir) : Bool :=
  match search t value with
  | none => false
  | some n =>
    let balance := get_balance n
    if 1 < balance ∧ dir = .right then decide (0 ≤ get_balance n.left)
    else if balance < -1 ∧ dir = .left then decide (get_balance n.right ≤ 0)
    else (find_unbalanced_ancestor_needing_rotation t n dir).isSome

/-- Rotation branch of `AVLTreeCLI.process_command` (`rr`/`rl`) in
practice mode: reject when the value is absent or the validator refuses;
otherwise rotate (at the root directly, or through the parent relink) and
recompute all heights. -/
def practice_rotate (t : Tree) (v : Int) (dir : Dir) : Except Err Tree :=
  match search t v with
  | none => .ok t
  | some n =>
    if is_rotation_needed t v dir then do
      let t' ←
        if t = n then rotate_dir dir n
        else rotate_node_and_update_parent t n dir
      .ok (update_all_heights t')
    else .ok t

/-- AVLTreeCLI.process_command in practice mode, restricted to the
tree-mutating commands: `a` rejects duplicates and rejects when the tree
is currently unbalanced, then inserts without balancing; `d`
symmetrically; `rl`/`rr` go through the validator.  A rejection leaves the
tree unchanged. -/
def practice_step (t : Tree) : Cmd → Except Err Tree
  | .add v =>
    if (search t v).isSome then .ok t
    else if (find_unbalanced_node t).isSome then .ok t
    else .ok (insert_manual t v)
  | .del v =>
    if (search t v).isNone then .ok t
    else if (find_unbalanced_node t).isSome then .ok t
    else .ok (delete_manual t v)
  | .rl v => practice_rotate t v .left
  | .rr v => practice_rotate t v .right

/-- AVLTreeCLI.process_command in automatic mode, restricted to the
tree-mutating commands: `a` rejects duplicates then runs
`_insert_with_auto_balance`, `d` rejects absent values then runs
`_delete_with_auto_balance`, and `rl`/`rr` are rejected outright.  `none`
means the balancing loop ran out of fuel or a rotation raised. -/
def auto_step (fuel : Nat) (t : Tree) : Cmd → Option Tree
  | .add v =>
    if (search t v).isSome then some t
    else
      match insert_with_auto_balance t v fuel with
      | .ok (some t') => some t'
      | _ => none
  | .del v =>
    if (search t v).isNone then some t
    else
      match delete_with_auto_balance t v fuel with
      | .ok (some t') => some t'
      | _ => none
  | .rl _ => some t
  | .rr _ => some t

/-- Folding automatic-mode commands from the initial empty tree. -/
def auto_run (fuel : Nat) : Tree → List Cmd → Option Tree
  | t, [] => some t
  | t, c :: cs =>
    match auto_step fuel t c with
    | some t' => auto_run fuel t' cs
    | none => none

/-- Invariant: every node's stored `height` field equals
`1 + max(height(left), height(right))` (the spec's height invariant). -/
def heightCorrect : Tree → Bool
  | .nil => true
  | .node _ l r h =>
    decide (h = 1 + max (get_height l) (get_height r)) &&
      heightCorrect l && heightCorrect r

/-- Structural height of a tree, ignoring the cached `height` fields. -/
def real_height : Tree → Int
  | .nil => 0
  | .node _ l r _ => 1 + max (real_height l) (real_height r)

/-- Invariant: every node's balance factor, computed from the STORED
heights exactly as `AVLTree.get_balance` does, has absolute value at most
one. -/
def storedBalanced : Tree → Bool
  | .nil => true
  | .node v l r h =>
    decide (|get_balance (.node v l r h)| ≤ 1) &&
      storedBalanced l && storedBalanced r

/-- Invariant: every node's left and right subtrees have STRUCTURAL
heights differing by at most one. -/
def shapeBalanced : Tree → Bool
  | .nil => true
  | .node _ l r _ =>
    decide (|real_height l - real_height r| ≤ 1) &&
      shapeBalanced l && shapeBalanced r

/-- Invariant: every stored height field is at least one (as established
by `Node.__init__` and preserved by every height update in the source). -/
def posHeights : Tree → Bool
  | .nil => true
  | .node _ l r h => decide (1 ≤ h) && posHeights l && posHeights r

/-- Every value in the tree satisfies `p`. -/
def forallVals (p : Int → Bool) : Tree → Bool
  | .nil => true
  | .node v l r _ => p v && forallVals p l && forallVals p r

/-- Binary-search-tree invariant: at every node, all values on the left
are smaller and all values on the right are larger. -/
def isBST : Tree → Bool
  | .nil => true
  | .node v l r _ =>
    forallVals (fun x => decide (x < v)) l &&
      forallVals (fun x => decide (v < x)) r && isBST l && isBST r

/-- Membership of a value in a tree (no search-path assumption). -/
def memT (x : Int) : Tree → Bool
  | .nil => false
  | .node v l r _ => decide (x = v) || memT x l || memT x r

/-- All subtrees rooted at the nodes of `t`, listed in post-order: the
order in which `_find_unbalanced_node` examines nodes. -/
def postorder_subtrees : Tree → List Tree
  | .nil => []
  | .node v l r h =>
    postorder_subtrees l ++ postorder_subtrees r ++ [.node v l r h]

/-- All subtrees of `t` paired with the depth of their root below the
root of `t`. -/
def subtree_depths : Tree → Nat → List (Tree × Nat)
  | .nil, _ => []
  | .node v l r h, d =>
    (Tree.node v l r h, d) :: (subtree_depths l (d + 1) ++ subtree_depths r (d + 1))

/-- Descent path (list of directions) from the root to the node holding
`x`, following the same comparisons as `search`. -/
def path_to_value : Tree → Int → Option (List Dir)
  | .nil, _ => none
  | .node v l r _, x =>
    if v = x then some []
    else if x < v then (path_to_value l x).map (Dir.left :: ·)
    else (path_to_value r x).map (Dir.right :: ·)

/-- Subtree at the end of a direction path. -/
def subtree_at : Tree → List Dir → Option Tree
  | t, [] => some t
  | .nil, _ :: _ => none
  | .node _ l _ _, .left :: p => subtree_at l p
  | .node _ _ r _, .right :: p => subtree_at r p

/-- Replace the subtree at the end of a direction path. -/
def replace_at : Tree → List Dir → Tree → Tree
  | _, [], s => s
  | .nil, _ :: _, _ => .nil
  | .node v l r h, .left :: p, s => .node v (replace_at l p s) r h
  | .node v l r h, .right :: p, s => .node v l (replace_at r p s) h

/-- CLI command sequence in automatic mode: inserting 2, 1, 3, 4, 5 through
the `a` command. -/
def c2cmds : List Cmd := [.add 2, .add 1, .add 3, .add 4, .add 5]

/-- CLI command sequence in automatic mode: inserting 6, 4, 8, 3, 5, 7, 9,
2, 1 through the `a` command. -/
def c3cmds : List Cmd :=
  [.add 6, .add 4, .add 8, .add 3, .add 5, .add 7, .add 9, .add 2, .add 1]

/-- The same nine values as `c3cmds`, for direct `AVLTree.insert` calls. -/
def c3vals : List Int := [6, 4, 8, 3, 5, 7, 9, 2, 1]

/-- CLI command sequence in automatic mode: twenty-one insertions followed
by the deletion of 15. -/
def c1cmds : List Cmd :=
  [.add 50, .add 20, .add 58, .add 10, .add 30, .add 55, .add 61, .add 5,
   .add 15, .add 25, .add 35, .add 53, .add 57, .add 60, .add 62, .add 3,
   .add 52, .add 54, .add 56, .add 59, .add 51, .del 15]

/-- A height-correct BST whose first post-order unbalanced node (value 3,
depth 1) is not its deepest unbalanced node (value 14 sits at depth 3). -/
def ex7 : Tree :=
  .node 10
    (.node 3 .nil (.node 5 .nil (.node 6 .nil .nil 1) 2) 3)
    (.node 20
      (.node 12 (.node 11 .nil .nil 1)
        (.node 14 .nil (.node 16 .nil (.node 17 .nil .nil 1) 2) 3) 4)
      (.node 25 .nil .nil 1) 5)
    6

/-- The subtree of `ex7` rooted at value 3 (what `search ex7 3` returns). -/
def ex7n : Tree := .node 3 .nil (.node 5 .nil (.node 6 .nil .nil 1) 2) 3

/-- The tree `practice_rotate ex7 3 .left` produces: the validated left
rotation applied at value 3, heights recomputed everywhere. -/
def ex7rot : Tree :=
  .node 10
    (.node 5 (.node 3 .nil .nil 1) (.node 6 .nil .nil 1) 2)
    (.node 20
      (.node 12 (.node 11 .nil .nil 1)
        (.node 14 .nil (.node 16 .nil (.node 17 .nil .nil 1) 2) 3) 4)
      (.node 25 .nil .nil 1) 5)
    6

/-- A small BST used to exercise the manual-rotation relink on a non-root
node (value 3, left child of the root). -/
def exC8 : Tree :=
  .node 5 (.node 3 .nil (.node 4 .nil .nil 1) 2) (.node 8 .nil .nil 1) 3

/-- The subtree of `exC8` rooted at value 3. -/
def exC8n : Tree := .node 3 .nil (.node 4 .nil .nil 1) 2

/-- `left_rotate exC8n`. -/
def exC8rot : Tree := .node 4 (.node 3 .nil .nil 1) .nil 2

/-- An unbalanced tree (the root has balance factor -2) with correct
heights: a right-right chain 1, 2, 3. -/
def tUnb : Tree := .node 1 .nil (.node 2 .nil (.node 3 .nil .nil 1) 2) 3

@[simp] lemma get_height_nil : get_height .nil = 0 := rfl

@[simp] lemma get_height_node (v : Int) (l r : Tree) (h : Int) :
    get_height (.node v l r h) = h := rfl

@[simp] lemma get_balance_nil : get_balance .nil = 0 := rfl

@[simp] lemma get_balance_node (v : Int) (l r : Tree) (h : Int) :
    get_balance (.node v l r h) = get_height l - get_height r := rfl

@[simp] lemma val_node (v : Int) (l r : Tree) (h : Int) :
    Tree.val (.node v l r h) = v := rfl

@[simp] lemma left_node (v : Int) (l r : Tree) (h : Int) :
    Tree.left (.node v l r h) = l := rfl

@[simp] lemma right_node (v : Int) (l r : Tree) (h : Int) :
    Tree.right (.node v l r h) = r := rfl

@[simp] lemma heightCorrect_nil : heightCorrect .nil = true := rfl

@[simp] lemma heightCorrect_node {v : Int} {l r : Tree} {h : Int} :
    heightCorrect (.node v l r h) = true ↔
      h = 1 + max (get_height l) (get_height r) ∧
        heightCorrect l = true ∧ heightCorrect r = true := by
  simp [heightCorrect, and_assoc]

@[simp] lemma storedBalanced_nil : storedBalanced .nil = true := rfl

@[simp] lemma storedBalanced_node {v : Int} {l r : Tree} {h : Int} :
    storedBalanced (.node v l r h) = true ↔
      |get_height l - get_height r| ≤ 1 ∧
        storedBalanced l = true ∧ storedBalanced r = true := by
  simp [storedBalanced, and_assoc]

@[simp] lemma posHeights_nil : posHeights .nil = true := rfl

@[simp] lemma posHeights_node {v : Int} {l r : Tree} {h : Int} :
    posHeights (.node v l r h) = true ↔
      1 ≤ h ∧ posHeights l = true ∧ posHeights r = true := by
  simp [posHeights, and_assoc]

@[simp] lemma shapeBalanced_nil : shapeBalanced .nil = true := rfl

@[simp] lemma shapeBalanced_node {v : Int} {l r : Tree} {h : Int} :
    shapeBalanced (.node v l r h) = true ↔
      |real_height l - real_height r| ≤ 1 ∧
        shapeBalanced l = true ∧ shapeBalanced r = true := by
  simp [shapeBalanced, and_assoc]

@[simp] lemma memT_nil (x : Int) : memT x .nil = false := rfl

@[simp] lemma memT_node {x v : Int} {l r : Tree} {h : Int} :
    memT x (.node v l r h) = true ↔
      x = v ∨ memT x l = true ∨ memT x r = true := by
  simp [memT, or_assoc]

@[simp] lemma forallVals_nil (p : Int → Bool) : forallVals p .nil = true := rfl

@[simp] lemma forallVals_node {p : Int → Bool} {v : Int} {l r : Tree} {h : Int} :
    forallVals p (.node v l r h) = true ↔
      p v = true ∧ forallVals p l = true ∧ forallVals p r = true := by
  simp [forallVals, and_assoc]

@[simp] lemma isBST_nil : isBST .nil = true := rfl

@[simp] lemma isBST_node {v : Int} {l r : Tree} {h : Int} :
    isBST (.node v l r h) = true ↔
      forallVals (fun x => decide (x < v)) l = true ∧
        forallVals (fun x => decide (v < x)) r = true ∧
        isBST l = true ∧ isBST r = true := by
  simp [isBST, and_assoc]

lemma forallVals_mem {p : Int → Bool} {t : Tree} (hp : forallVals p t = true)
    {x : Int} (hx : memT x t = true) : p x = true := by
  induction t with
  | nil => simp at hx
  | node v l r h ihl ihr =>
    rw [forallVals_node] at hp
    rcases memT_node.mp hx with rfl | hx | hx
    · exact hp.1
    · exact ihl hp.2.1 hx
    · exact ihr hp.2.2 hx

lemma forallVals_of_mem {p : Int → Bool} {t : Tree}
    (hp : ∀ x, memT x t = true → p x = true) : forallVals p t = true := by
  induction t with
  | nil => rfl
  | node v l r h ihl ihr =>
    rw [forallVals_node]
    refine ⟨hp v (by simp), ihl fun x hx => hp x ?_, ihr fun x hx => hp x ?_⟩
    · rw [memT_node]; tauto
    · rw [memT_node]; tauto

lemma get_height_nonneg {t : Tree} (hh : heightCorrect t = true) :
    0 ≤ get_height t := by
  induction t with
  | nil => simp
  | node v l r h ihl ihr =>
    rw [heightCorrect_node] at hh
    have h1 := ihl hh.2.1
    have h2 := ihr hh.2.2
    simp only [get_height_node, hh.1]
    omega

lemma get_height_pos {t : Tree} (hh : heightCorrect t = true) (ht : t ≠ .nil) :
    1 ≤ get_height t := by
  cases t with
  | nil => exact absurd rfl ht
  | node v l r h =>
    rw [heightCorrect_node] at hh
    have h1 := get_height_nonneg hh.2.1
    have h2 := get_height_nonneg hh.2.2
    simp only [get_height_node, hh.1]
    omega

lemma ne_nil_of_height_pos {t : Tree} (hp : 0 < get_height t) : t ≠ .nil := by
  intro h
  subst h
  simp at hp

lemma posHeights_height_nonneg {t : Tree} (hp : posHeights t = true) :
    0 ≤ get_height t := by
  cases t with
  | nil => simp
  | node v l r h =>
    rw [posHeights_node] at hp
    simp only [get_height_node]
    omega

lemma memT_val {t : Tree} (ht : t ≠ .nil) : memT t.val t = true := by
  cases t with
  | nil => exact absurd rfl ht
  | node v l r h => simp

lemma memT_node_false {x v : Int} {l r : Tree} {h : Int} :
    memT x (.node v l r h) = false ↔
      x ≠ v ∧ memT x l = false ∧ memT x r = false := by
  simp [memT, or_assoc, and_assoc]

lemma mem_inorder {x : Int} {t : Tree} : x ∈ inorder t ↔ memT x t = true := by
  induction t with
  | nil => simp [inorder]
  | node v l r h ihl ihr =>
    simp [inorder, memT_node, ihl, ihr]
    tauto

lemma isBST_inorder_sorted {t : Tree} (hb : isBST t = true) :
    List.Sorted (· < ·) (inorder t) := by
  induction t with
  | nil => simp [inorder]
  | node v l r h ihl ihr =>
    rw [isBST_node] at hb
    rw [inorder, List.Sorted, List.pairwise_append]
    refine ⟨ihl hb.2.2.1, ?_, ?_⟩
    · rw [List.pairwise_cons]
      refine ⟨fun b hb' => ?_, ihr hb.2.2.2⟩
      have := forallVals_mem hb.2.1 (mem_inorder.mp hb')
      simpa using this
    · intro a ha b hbm
      have h1 : a < v := by
        have := forallVals_mem hb.1 (mem_inorder.mp ha)
        simpa using this
      rcases List.mem_cons.mp hbm with rfl | hbm
      · exact h1
      · have h2 : v < b := by
          have := forallVals_mem hb.2.1 (mem_inorder.mp hbm)
          simpa using this
        exact h1.trans h2

lemma search_some_val {t : Tree} {x : Int} {n : Tree}
    (hs : search t x = some n) : n.val = x ∧ n ≠ .nil := by
  induction t with
  | nil => simp [search] at hs
  | node v l r h ihl ihr =>
    rw [search] at hs
    by_cases hv : v = x
    · simp only [hv, if_pos rfl] at hs
      cases hs
      exact ⟨rfl, by simp⟩
    · rw [if_neg hv] at hs
      by_cases hlt : x < v
      · exact ihl (by rwa [if_pos hlt] at hs)
      · exact ihr (by rwa [if_neg hlt] at hs)

lemma search_some_memT {t : Tree} {x : Int} {n : Tree}
    (hs : search t x = some n) : memT x t = true := by
  induction t with
  | nil => simp [search] at hs
  | node v l r h ihl ihr =>
    rw [search] at hs
    by_cases hv : v = x
    · rw [memT_node]; exact Or.inl hv.symm
    · rw [if_neg hv] at hs
      by_cases hlt : x < v
      · rw [memT_node]; exact Or.inr (Or.inl (ihl (by rwa [if_pos hlt] at hs)))
      · rw [memT_node]; exact Or.inr (Or.inr (ihr (by rwa [if_neg hlt] at hs)))

lemma search_of_memT {t : Tree} {x : Int} (hb : isBST t = true)
    (hm : memT x t = true) : ∃ n, search t x = some n := by
  induction t with
  | nil => simp at hm
  | node v l r h ihl ihr =>
    rw [isBST_node] at hb
    rw [search]
    rcases memT_node.mp hm with rfl | hm' | hm'
    · exact ⟨_, by rw [if_pos rfl]⟩
    · have hlt : x < v := by
        have := forallVals_mem hb.1 hm'
        simpa using this
      have hv : ¬ v = x := by omega
      rw [if_neg hv, if_pos hlt]
      exact ihl hb.2.2.1 hm'
    · have hlt : v < x := by
        have := forallVals_mem hb.2.1 hm'
        simpa using this
      have hv : ¬ v = x := by omega
      rw [if_neg hv, if_neg (by omega : ¬ x < v)]
      exact ihr hb.2.2.2 hm'

lemma search_none_of_not_memT {t : Tree} {x : Int}
    (hm : memT x t = false) : search t x = none := by
  induction t with
  | nil => rfl
  | node v l r h ihl ihr =>
    rw [memT_node_false] at hm
    rw [search, if_neg (fun hv => hm.1 hv.symm)]
    by_cases hlt : x < v
    · rw [if_pos hlt]; exact ihl hm.2.1
    · rw [if_neg hlt]; exact ihr hm.2.2

lemma insertRec_dup {t : Tree} {v : Int} (hb : isBST t = true)
    (hm : memT v t = true) : insertRec t v = .error .dup := by
  induction t with
  | nil => simp at hm
  | node w l r h ihl ihr =>
    rw [isBST_node] at hb
    rcases memT_node.mp hm with rfl | hm' | hm'
    · rw [insertRec, if_neg (by omega : ¬ v < v), if_neg (by omega : ¬ v < v)]
    · have hlt : v < w := by
        have := forallVals_mem hb.1 hm'
        simpa using this
      rw [insertRec, if_pos hlt, ihl hb.2.2.1 hm']
      rfl
    · have hlt : w < v := by
        have := forallVals_mem hb.2.1 hm'
        simpa using this
      rw [insertRec, if_neg (by omega : ¬ v < w), if_pos hlt, ihr hb.2.2.2 hm']
      rfl

lemma deleteRec_notFound {t : Tree} {v : Int} (hm : memT v t = false) :
    deleteRec t v = .error .notFound := by
  induction t with
  | nil => rfl
  | node w l r h ihl ihr =>
    rw [memT_node_false] at hm
    have h1 : v < w ∨ w < v := by
      rcases lt_trichotomy v w with h' | h' | h'
      · exact Or.inl h'
      · exact absurd h' hm.1
      · exact Or.inr h'
    rcases h1 with h' | h'
    · rw [deleteRec.eq_def]
      simp only [if_pos h', ihl hm.2.1]
      rfl
    · rw [deleteRec.eq_def]
      simp only [if_neg (by omega : ¬ v < w), if_pos h', ihr hm.2.2]
      rfl

lemma right_rotate_eq (v lv : Int) (ll lr r : Tree) (lh h : Int) :
    right_rotate (.node v (.node lv ll lr lh) r h) =
      .ok (.node lv ll
        (.node v lr r (1 + max (get_height lr) (get_height r)))
        (1 + max (get_height ll) (1 + max (get_height lr) (get_height r)))) :=
  rfl

lemma left_rotate_eq (v rv : Int) (l rl rr : Tree) (rh h : Int) :
    left_rotate (.node v l (.node rv rl rr rh) h) =
      .ok (.node rv
        (.node v l rl (1 + max (get_height l) (get_height rl)))
        rr
        (1 + max (1 + max (get_height l) (get_height rl)) (get_height rr))) :=
  rfl

lemma left_rotate_ok_shape {t t' : Tree} (h : left_rotate t = .ok t') :
    ∃ zv zl yv yl yr yh h0, t = .node zv zl (.node yv yl yr yh) h0 ∧
      t' = .node yv
        (.node zv zl yl (1 + max (get_height zl) (get_height yl)))
        yr
        (1 + max (1 + max (get_height zl) (get_height yl)) (get_height yr)) := by
  match t with
  | .nil => exact absurd h (by simp [left_rotate])
  | .node zv zl .nil h0 => exact absurd h (by simp [left_rotate])
  | .node zv zl (.node yv yl yr yh) h0 =>
    rw [left_rotate_eq, Except.ok.injEq] at h
    exact ⟨zv, zl, yv, yl, yr, yh, h0, rfl, h.symm⟩

lemma right_rotate_ok_shape {t t' : Tree} (h : right_rotate t = .ok t') :
    ∃ zv yv yl yr yh zr h0, t = .node zv (.node yv yl yr yh) zr h0 ∧
      t' = .node yv yl
        (.node zv yr zr (1 + max (get_height yr) (get_height zr)))
        (1 + max (get_height yl) (1 + max (get_height yr) (get_height zr))) := by
  match t with
  | .nil => exact absurd h (by simp [right_rotate])
  | .node zv .nil zr h0 => exact absurd h (by simp [right_rotate])
  | .node zv (.node yv yl yr yh) zr h0 =>
    rw [right_rotate_eq, Except.ok.injEq] at h
    exact ⟨zv, yv, yl, yr, yh, zr, h0, rfl, h.symm⟩

lemma left_rotate_memT {t t' : Tree} (h : left_rotate t = .ok t') (x : Int) :
    memT x t' = true ↔ memT x t = true := by
  obtain ⟨zv, zl, yv, yl, yr, yh, h0, rfl, rfl⟩ := left_rotate_ok_shape h
  simp only [memT_node]
  tauto

lemma right_rotate_memT {t t' : Tree} (h : right_rotate t = .ok t') (x : Int) :
    memT x t' = true ↔ memT x t = true := by
  obtain ⟨zv, yv, yl, yr, yh, zr, h0, rfl, rfl⟩ := right_rotate_ok_shape h
  simp only [memT_node]
  tauto

lemma left_rotate_isBST {t t' : Tree} (h : left_rotate t = .ok t')
    (hb : isBST t = true) : isBST t' = true := by
  obtain ⟨zv, zl, yv, yl, yr, yh, h0, rfl, rfl⟩ := left_rotate_ok_shape h
  rw [isBST_node] at hb
  obtain ⟨hbig, hbR, hbzl, hbr⟩ := hb
  rw [isBST_node] at hbr
  rw [forallVals_node] at hbR
  rw [isBST_node]
  refine ⟨?_, hbr.2.1, isBST_node.mpr ⟨hbig, hbR.2.1, hbzl, hbr.2.2.1⟩, hbr.2.2.2⟩
  rw [forallVals_node]
  refine ⟨by simpa using hbR.1, ?_, hbr.1⟩
  exact forallVals_of_mem fun x hx => by
    have h1 := forallVals_mem hbig hx
    have h2 : zv < yv := by simpa using hbR.1
    simp only [decide_eq_true_eq] at h1 ⊢
    omega

lemma right_rotate_isBST {t t' : Tree} (h : right_rotate t = .ok t')
    (hb : isBST t = true) : isBST t' = true := by
  obtain ⟨zv, yv, yl, yr, yh, zr, h0, rfl, rfl⟩ := right_rotate_ok_shape h
  rw [isBST_node] at hb
  obtain ⟨hbL, hbig, hbl, hbzr⟩ := hb
  rw [isBST_node] at hbl
  rw [forallVals_node] at hbL
  rw [isBST_node]
  refine ⟨hbl.1, ?_, hbl.2.2.1, isBST_node.mpr ⟨hbL.2.2, hbig, hbl.2.2.2, hbzr⟩⟩
  rw [forallVals_node]
  refine ⟨by simpa using hbL.1, hbl.2.1, ?_⟩
  exact forallVals_of_mem fun x hx => by
    have h1 := forallVals_mem hbig hx
    have h2 : yv < zv := by simpa using hbL.1
    simp only [decide_eq_true_eq] at h1 ⊢
    omega

lemma rebal_LL {w : Int} {l r : Tree} {h0 : Int}
    (hb : isBST (.node w l r h0) = true)
    (hhl : heightCorrect l = true) (hhr : heightCorrect r = true)
    (hsl : storedBalanced l = true) (hsr : storedBalanced r = true)
    (hbal : get_height l - get_height r = 2)
    (hlb : 0 ≤ get_balance l) :
    ∃ t', right_rotate (.node w l r h0) = .ok t' ∧ isBST t' = true ∧
      heightCorrect t' = true ∧ storedBalanced t' = true ∧
      (∀ x, memT x t' = true ↔ memT x (.node w l r h0) = true) ∧
      get_height t' =
        (if get_balance l = 0 then get_height l + 1 else get_height l) := by
  have hrnn : 0 ≤ get_height r := get_height_nonneg hhr
  have hlpos : 0 < get_height l := by omega
  obtain ⟨lv, ll, lr, lh, rfl⟩ : ∃ lv ll lr lh, l = .node lv ll lr lh := by
    cases l with
    | nil => simp at hlpos
    | node a b c d => exact ⟨a, b, c, d, rfl⟩
  rw [heightCorrect_node] at hhl
  rw [storedBalanced_node] at hsl
  obtain ⟨hlh, hhll, hhlr⟩ := hhl
  obtain ⟨hlbal, hsll, hslr⟩ := hsl
  have hgll : 0 ≤ get_height ll := get_height_nonneg hhll
  have hglr : 0 ≤ get_height lr := get_height_nonneg hhlr
  rw [abs_le] at hlbal
  simp only [get_height_node, get_balance_node] at hbal hlb hlbal ⊢
  have hrot := right_rotate_eq w lv ll lr r lh h0
  refine ⟨_, hrot, right_rotate_isBST hrot hb, ?_, ?_,
    fun x => right_rotate_memT hrot x, ?_⟩
  · refine heightCorrect_node.mpr ⟨by simp, hhll,
      heightCorrect_node.mpr ⟨by simp, hhlr, hhr⟩⟩
  · refine storedBalanced_node.mpr ⟨?_, hsll,
      storedBalanced_node.mpr ⟨?_, hslr, hsr⟩⟩
    · rw [abs_le]; simp only [get_height_node]; omega
    · rw [abs_le]; omega
  · simp only [get_height_node]
    split_ifs with hc
    · omega
    · omega

lemma rebal_RR {w : Int} {l r : Tree} {h0 : Int}
    (hb : isBST (.node w l r h0) = true)
    (hhl : heightCorrect l = true) (hhr : heightCorrect r = true)
    (hsl : storedBalanced l = true) (hsr : storedBalanced r = true)
    (hbal : get_height l - get_height r = -2)
    (hrb : get_balance r ≤ 0) :
    ∃ t', left_rotate (.node w l r h0) = .ok t' ∧ isBST t' = true ∧
      heightCorrect t' = true ∧ storedBalanced t' = true ∧
      (∀ x, memT x t' = true ↔ memT x (.node w l r h0) = true) ∧
      get_height t' =
        (if get_balance r = 0 then get_height r + 1 else get_height r) := by
  have hlnn : 0 ≤ get_height l := get_height_nonneg hhl
  have hrpos : 0 < get_height r := by omega
  obtain ⟨rv, rl, rr, rh, rfl⟩ : ∃ rv rl rr rh, r = .node rv rl rr rh := by
    cases r with
    | nil => simp at hrpos
    | node a b c d => exact ⟨a, b, c, d, rfl⟩
  rw [heightCorrect_node] at hhr
  rw [storedBalanced_node] at hsr
  obtain ⟨hrh, hhrl, hhrr⟩ := hhr
  obtain ⟨hrbal, hsrl, hsrr⟩ := hsr
  have hgrl : 0 ≤ get_height rl := get_height_nonneg hhrl
  have hgrr : 0 ≤ get_height rr := get_height_nonneg hhrr
  rw [abs_le] at hrbal
  simp only [get_height_node, get_balance_node] at hbal hrb hrbal ⊢
  have hrot := left_rotate_eq w rv l rl rr rh h0
  refine ⟨_, hrot, left_rotate_isBST hrot hb, ?_, ?_,
    fun x => left_rotate_memT hrot x, ?_⟩
  · refine heightCorrect_node.mpr ⟨by simp, heightCorrect_node.mpr
      ⟨by simp, hhl, hhrl⟩, hhrr⟩
  · refine storedBalanced_node.mpr ⟨?_, storedBalanced_node.mpr
      ⟨?_, hsl, hsrl⟩, hsrr⟩
    · rw [abs_le]; simp only [get_height_node]; omega
    · rw [abs_le]; omega
  · simp only [get_height_node]
    split_ifs with hc
    · omega
    · omega

set_option maxHeartbeats 1000000 in
lemma rebal_LR {w : Int} {l r : Tree} {h0 h1 : Int}
    (hb : isBST (.node w l r h0) = true)
    (hhl : heightCorrect l = true) (hhr : heightCorrect r = true)
    (hsl : storedBalanced l = true) (hsr : storedBalanced r = true)
    (hbal : get_height l - get_height r = 2)
    (hlb : get_balance l < 0) :
    ∃ l2 t', left_rotate l = .ok l2 ∧
      right_rotate (.node w l2 r h1) = .ok t' ∧ isBST t' = true ∧
      heightCorrect t' = true ∧ storedBalanced t' = true ∧
      (∀ x, memT x t' = true ↔ memT x (.node w l r h0) = true) ∧
      get_height t' = get_height l := by
  have hrnn : 0 ≤ get_height r := get_height_nonneg hhr
  have hlpos : 0 < get_height l := by omega
  obtain ⟨lv, ll, lr, lh, rfl⟩ : ∃ lv ll lr lh, l = .node lv ll lr lh := by
    cases l with
    | nil => simp at hlpos
    | node a b c d => exact ⟨a, b, c, d, rfl⟩
  rw [heightCorrect_node] at hhl
  rw [storedBalanced_node] at hsl
  obtain ⟨hlh, hhll, hhlr⟩ := hhl
  obtain ⟨hlbal, hsll, hslr⟩ := hsl
  have hgll : 0 ≤ get_height ll := get_height_nonneg hhll
  rw [abs_le] at hlbal
  simp only [get_balance_node] at hlb
  have hlrpos : 0 < get_height lr := by
    simp only [get_height_node] at hbal ⊢
    omega
  obtain ⟨mv, ml, mr, mh, rfl⟩ : ∃ mv ml mr mh, lr = .node mv ml mr mh := by
    cases lr with
    | nil => simp at hlrpos
    | node a b c d => exact ⟨a, b, c, d, rfl⟩
  rw [heightCorrect_node] at hhlr
  rw [storedBalanced_node] at hslr
  obtain ⟨hmh, hhml, hhmr⟩ := hhlr
  obtain ⟨hmbal, hsml, hsmr⟩ := hslr
  have hgml : 0 ≤ get_height ml := get_height_nonneg hhml
  have hgmr : 0 ≤ get_height mr := get_height_nonneg hhmr
  rw [abs_le] at hmbal
  simp only [get_height_node] at hbal hlb hlbal hlh hmh hmbal hlrpos ⊢
  have hrot1 := left_rotate_eq lv mv ll ml mr mh lh
  have hbmid : isBST (.node w
      (.node mv (.node lv ll ml (1 + max (get_height ll) (get_height ml)))
        mr (1 + max (1 + max (get_height ll) (get_height ml)) (get_height mr)))
      r h1) = true := by
    rw [isBST_node] at hb ⊢
    refine ⟨?_, hb.2.1, left_rotate_isBST hrot1 hb.2.2.1, hb.2.2.2⟩
    exact forallVals_of_mem fun x hx =>
      forallVals_mem hb.1 ((left_rotate_memT hrot1 x).mp hx)
  have hrot2 := right_rotate_eq w mv
    (.node lv ll ml (1 + max (get_height ll) (get_height ml))) mr r
    (1 + max (1 + max (get_height ll) (get_height ml)) (get_height mr)) h1
  refine ⟨_, _, hrot1, hrot2, right_rotate_isBST hrot2 hbmid, ?_, ?_, ?_, ?_⟩
  · refine heightCorrect_node.mpr ⟨by simp, heightCorrect_node.mpr
      ⟨by simp, hhll, hhml⟩, heightCorrect_node.mpr ⟨by simp, hhmr, hhr⟩⟩
  · refine storedBalanced_node.mpr ⟨?_, storedBalanced_node.mpr
      ⟨?_, hsll, hsml⟩, storedBalanced_node.mpr ⟨?_, hsmr, hsr⟩⟩
    · rw [abs_le]; simp only [get_height_node]; omega
    · rw [abs_le]; omega
    · rw [abs_le]; omega
  · intro x
    refine (right_rotate_memT hrot2 x).trans ?_
    have h2 := left_rotate_memT hrot1 x
    simp only [memT_node] at h2 ⊢
    rw [h2]
  · simp only [get_height_node]
    omega

set_option maxHeartbeats 1000000 in
lemma rebal_RL {w : Int} {l r : Tree} {h0 h1 : Int}
    (hb : isBST (.node w l r h0) = true)
    (hhl : heightCorrect l = true) (hhr : heightCorrect r = true)
    (hsl : storedBalanced l = true) (hsr : storedBalanced r = true)
    (hbal : get_height l - get_height r = -2)
    (hrb : 0 < get_balance r) :
    ∃ r2 t', right_rotate r = .ok r2 ∧
      left_rotate (.node w l r2 h1) = .ok t' ∧ isBST t' = true ∧
      heightCorrect t' = true ∧ storedBalanced t' = true ∧
      (∀ x, memT x t' = true ↔ memT x (.node w l r h0) = true) ∧
      get_height t' = get_height r := by
  have hlnn : 0 ≤ get_height l := get_height_nonneg hhl
  have hrpos : 0 < get_height r := by omega
  obtain ⟨rv, rl, rr, rh, rfl⟩ : ∃ rv rl rr rh, r = .node rv rl rr rh := by
    cases r with
    | nil => simp at hrpos
    | node a b c d => exact ⟨a, b, c, d, rfl⟩
  rw [heightCorrect_node] at hhr
  rw [storedBalanced_node] at hsr
  obtain ⟨hrh, hhrl, hhrr⟩ := hhr
  obtain ⟨hrbal, hsrl, hsrr⟩ := hsr
  have hgrr : 0 ≤ get_height rr := get_height_nonneg hhrr
  rw [abs_le] at hrbal
  simp only [get_balance_node] at hrb
  have hrlpos : 0 < get_height rl := by
    simp only [get_height_node] at hbal ⊢
    omega
  obtain ⟨mv, ml, mr, mh, rfl⟩ : ∃ mv ml mr mh, rl = .node mv ml mr mh := by
    cases rl with
    | nil => simp at hrlpos
    | node a b c d => exact ⟨a, b, c, d, rfl⟩
  rw [heightCorrect_node] at hhrl
  rw [storedBalanced_node] at hsrl
  obtain ⟨hmh, hhml, hhmr⟩ := hhrl
  obtain ⟨hmbal, hsml, hsmr⟩ := hsrl
  have hgml : 0 ≤ get_height ml := get_height_nonneg hhml
  have hgmr : 0 ≤ get_height mr := get_height_nonneg hhmr
  rw [abs_le] at hmbal
  simp only [get_height_node] at hbal hrb hrbal hrh hmh hmbal hrlpos ⊢
  have hrot1 := right_rotate_eq rv mv ml mr rr mh rh
  have hbmid : isBST (.node w l
      (.node mv ml (.node rv mr rr (1 + max (get_height mr) (get_height rr)))
        (1 + max (get_height ml) (1 + max (get_height mr) (get_height rr))))
      h1) = true := by
    rw [isBST_node] at hb ⊢
    refine ⟨hb.1, ?_, hb.2.2.1, right_rotate_isBST hrot1 hb.2.2.2⟩
    exact forallVals_of_mem fun x hx =>
      forallVals_mem hb.2.1 ((right_rotate_memT hrot1 x).mp hx)
  have hrot2 := left_rotate_eq w mv l ml
    (.node rv mr rr (1 + max (get_height mr) (get_height rr)))
    (1 + max (get_height ml) (1 + max (get_height mr) (get_height rr))) h1
  refine ⟨_, _, hrot1, hrot2, left_rotate_isBST hrot2 hbmid, ?_, ?_, ?_, ?_⟩
  · refine heightCorrect_node.mpr ⟨by simp, heightCorrect_node.mpr
      ⟨by simp, hhl, hhml⟩, heightCorrect_node.mpr ⟨by simp, hhmr, hhrr⟩⟩
  · refine storedBalanced_node.mpr ⟨?_, storedBalanced_node.mpr
      ⟨?_, hsl, hsml⟩, storedBalanced_node.mpr ⟨?_, hsmr, hsrr⟩⟩
    · rw [abs_le]; simp only [get_height_node]; omega
    · rw [abs_le]; omega
    · rw [abs_le]; omega
  · intro x
    refine (left_rotate_memT hrot2 x).trans ?_
    have h2 := right_rotate_memT hrot1 x
    simp only [memT_node] at h2 ⊢
    rw [h2]
  · simp only [get_height_node]
    omega

@[simp] lemma ok_bind {α β : Type} (a : α) (f : α → Except Err β) :
    (Except.ok a : Except Err α) >>= f = f a := rfl

@[simp] lemma error_bind {α β : Type} (e : Err) (f : α → Except Err β) :
    (Except.error e : Except Err α) >>= f = .error e := rfl

lemma exists_node_of_height_pos {t : Tree} (h : 0 < get_height t) :
    ∃ v l r hh, t = .node v l r hh := by
  cases t with
  | nil => simp at h
  | node a b c d => exact ⟨a, b, c, d, rfl⟩

lemma memT_node_left_iff {v w : Int} {l l' r : Tree} {h h' : Int}
    (hmem : ∀ x, memT x l' = true ↔ (x = v ∨ memT x l = true)) :
    ∀ x, memT x (.node w l' r h') = true ↔
      (x = v ∨ memT x (.node w l r h) = true) := by
  intro x
  rw [memT_node, memT_node, hmem x]
  tauto

lemma memT_node_right_iff {v w : Int} {l r r' : Tree} {h h' : Int}
    (hmem : ∀ x, memT x r' = true ↔ (x = v ∨ memT x r = true)) :
    ∀ x, memT x (.node w l r' h') = true ↔
      (x = v ∨ memT x (.node w l r h) = true) := by
  intro x
  rw [memT_node, memT_node, hmem x]
  tauto

lemma insertRec_ok {t : Tree} {v : Int} (hb : isBST t = true)
    (hh : heightCorrect t = true) (hs : storedBalanced t = true)
    (hm : memT v t = false) :
    ∃ t', insertRec t v = .ok t' ∧ isBST t' = true ∧ heightCorrect t' = true ∧
      storedBalanced t' = true ∧
      (∀ x, memT x t' = true ↔ (x = v ∨ memT x t = true)) ∧
      get_height t ≤ get_height t' ∧ get_height t' ≤ get_height t + 1 ∧
      (get_height t' = get_height t + 1 → t = .nil ∨
        (t'.val = t.val ∧
          get_balance t' = (if v < t.val then 1 else -1))) := by
  induction t with
  | nil =>
    refine ⟨.node v .nil .nil 1, rfl, by simp, by simp, by simp, ?_, ?_, ?_, ?_⟩
    · intro x; simp
    · simp
    · simp
    · intro _; exact Or.inl rfl
  | node w l r h ihl ihr =>
    rw [isBST_node] at hb
    rw [heightCorrect_node] at hh
    rw [storedBalanced_node] at hs
    rw [memT_node_false] at hm
    obtain ⟨hbal0, hsl, hsr⟩ := hs
    rw [abs_le] at hbal0
    obtain ⟨hbal0a, hbal0b⟩ := hbal0
    have hh1 : h = 1 + max (get_height l) (get_height r) := hh.1
    have hgl : 0 ≤ get_height l := get_height_nonneg hh.2.1
    have hgr : 0 ≤ get_height r := get_height_nonneg hh.2.2
    rcases lt_trichotomy v w with hvw | hvw | hvw
    · -- descend left
      obtain ⟨l', hins, hbl', hhl', hsl', hmem', hg1, hg2, hgrow⟩ :=
        ihl hb.2.2.1 hh.2.1 hsl hm.2.1
      have hfvl' : forallVals (fun x => decide (x < w)) l' = true :=
        forallVals_of_mem fun x hx => by
          rcases (hmem' x).mp hx with rfl | hxl
          · simp only [decide_eq_true_eq]; omega
          · exact forallVals_mem hb.1 hxl
      have hstep : insertRec (.node w l r h) v =
          insert_rebalance w l' r v := by
        rw [insertRec, if_pos hvw, hins, ok_bind]
      by_cases hrotQ : 1 < get_height l' - get_height r
      · -- a rotation fires
        have hgl'2 : get_height l' - get_height r = 2 := by omega
        have hgrowth : get_height l' = get_height l + 1 := by omega
        have hlne : l ≠ .nil := by
          intro hnil
          subst hnil
          simp only [get_height_nil] at *
          omega
        rcases hgrow hgrowth with hnil | ⟨hval, hbal'⟩
        · exact absurd hnil hlne
        obtain ⟨lv', l'l, l'r, l'h, rfl⟩ :=
          @exists_node_of_height_pos l' (by omega)
        simp only [get_height_node] at hg1 hg2 hrotQ hgl'2 hgrowth
        have hvne : v ≠ Tree.val l := by
          intro he
          rw [he] at hm
          exact absurd (memT_val hlne) (by rw [hm.2.1]; simp)
        simp only [val_node] at hval
        rw [← hval] at hvne hbal'
        have hbmid : isBST (.node w (.node lv' l'l l'r l'h) r
            (1 + max (get_height (.node lv' l'l l'r l'h)) (get_height r)))
            = true :=
          isBST_node.mpr ⟨hfvl', hb.2.1, hbl', hb.2.2.2⟩
        rcases lt_or_gt_of_ne hvne with hvlt | hvgt
        · -- Left-Left single rotation
          obtain ⟨t', hrot, hbt', hht', hst', hmt', hgt'⟩ :=
            rebal_LL hbmid hhl' hh.2.2 hsl' hsr hgl'2
              (by rw [hbal', if_pos hvlt]; omega)
          have hbalne : get_balance (.node lv' l'l l'r l'h) ≠ 0 := by
            rw [hbal', if_pos hvlt]; omega
          rw [if_neg hbalne] at hgt'
          refine ⟨t', ?_, hbt', hht', hst', ?_, ?_, ?_, ?_⟩
          · rw [hstep, insert_rebalance.eq_def]
            simp only [get_balance_node, get_height_node]
            rw [if_pos (by simpa using hrotQ), if_pos hvlt]
            exact hrot
          · intro x
            rw [hmt' x]
            exact memT_node_left_iff hmem' x
          · simp only [get_height_node] at hgt' ⊢
            omega
          · simp only [get_height_node] at hgt' ⊢
            omega
          · intro hct
            exfalso
            simp only [get_height_node] at hgt' hct
            omega
        · -- Left-Right double rotation
          obtain ⟨l2, t', hrot1, hrot2, hbt', hht', hst', hmt', hgt'⟩ :=
            @rebal_LR _ _ _ _ (1 + max (get_height (.node lv' l'l l'r l'h))
              (get_height r)) hbmid hhl' hh.2.2 hsl' hsr hgl'2
              (by rw [hbal', if_neg (by omega : ¬ v < lv')]; omega)
          refine ⟨t', ?_, hbt', hht', hst', ?_, ?_, ?_, ?_⟩
          · rw [hstep, insert_rebalance.eq_def]
            simp only [get_balance_node, get_height_node]
            rw [if_pos (by simpa using hrotQ), if_neg (by omega : ¬ v < lv'),
              if_pos hvgt, hrot1, ok_bind]
            exact hrot2
          · intro x
            rw [hmt' x]
            exact memT_node_left_iff hmem' x
          · simp only [get_height_node] at hgt' ⊢
            omega
          · simp only [get_height_node] at hgt' ⊢
            omega
          · intro hct
            exfalso
            simp only [get_height_node] at hgt' hct
            omega
      · -- no rotation on the way up
        have hnlt : ¬ get_height l' - get_height r < -1 := by omega
        refine ⟨.node w l' r (1 + max (get_height l') (get_height r)),
          ?_, ?_, ?_, ?_, ?_, ?_, ?_, ?_⟩
        · rw [hstep, insert_rebalance.eq_def]
          simp only [get_balance_node, get_height_node]
          rw [if_neg (by simpa using hrotQ), if_neg (by simpa using hnlt)]
        · exact isBST_node.mpr ⟨hfvl', hb.2.1, hbl', hb.2.2.2⟩
        · exact heightCorrect_node.mpr ⟨rfl, hhl', hh.2.2⟩
        · refine storedBalanced_node.mpr ⟨?_, hsl', hsr⟩
          rw [abs_le]
          omega
        · exact memT_node_left_iff hmem'
        · simp only [get_height_node]
          omega
        · simp only [get_height_node]
          omega
        · intro hct
          refine Or.inr ⟨rfl, ?_⟩
          simp only [get_height_node, get_balance_node, val_node] at hct ⊢
          rw [if_pos hvw]
          omega
    · exact absurd hvw hm.1
    · -- descend right
      obtain ⟨r', hins, hbr', hhr', hsr', hmem', hg1, hg2, hgrow⟩ :=
        ihr hb.2.2.2 hh.2.2 hsr hm.2.2
      have hfvr' : forallVals (fun x => decide (w < x)) r' = true :=
        forallVals_of_mem fun x hx => by
          rcases (hmem' x).mp hx with rfl | hxr
          · simp only [decide_eq_true_eq]; omega
          · exact forallVals_mem hb.2.1 hxr
      have hstep : insertRec (.node w l r h) v =
          insert_rebalance w l r' v := by
        rw [insertRec, if_neg (by omega : ¬ v < w), if_pos hvw, hins, ok_bind]
      by_cases hrotQ : get_height l - get_height r' < -1
      · -- a rotation fires
        have hgr'2 : get_height l - get_height r' = -2 := by omega
        have hgrowth : get_height r' = get_height r + 1 := by omega
        have hrne : r ≠ .nil := by
          intro hnil
          subst hnil
          simp only [get_height_nil] at *
          omega
        rcases hgrow hgrowth with hnil | ⟨hval, hbal'⟩
        · exact absurd hnil hrne
        obtain ⟨rv', r'l, r'r, r'h, rfl⟩ :=
          @exists_node_of_height_pos r' (by omega)
        simp only [get_height_node] at hg1 hg2 hrotQ hgr'2 hgrowth
        have hvne : v ≠ Tree.val r := by
          intro he
          rw [he] at hm
          exact absurd (memT_val hrne) (by rw [hm.2.2]; simp)
        simp only [val_node] at hval
        rw [← hval] at hvne hbal'
        have hbmid : isBST (.node w l (.node rv' r'l r'r r'h)
            (1 + max (get_height l) (get_height (.node rv' r'l r'r r'h))))
            = true :=
          isBST_node.mpr ⟨hb.1, hfvr', hb.2.2.1, hbr'⟩
        rcases lt_or_gt_of_ne hvne with hvlt | hvgt
        · -- Right-Left double rotation
          obtain ⟨r2, t', hrot1, hrot2, hbt', hht', hst', hmt', hgt'⟩ :=
            @rebal_RL _ _ _ _ (1 + max (get_height l)
              (get_height (.node rv' r'l r'r r'h))) hbmid hh.2.1 hhr' hsl
              hsr' hgr'2
              (by rw [hbal', if_pos hvlt]; omega)
          refine ⟨t', ?_, hbt', hht', hst', ?_, ?_, ?_, ?_⟩
          · rw [hstep, insert_rebalance.eq_def]
            simp only [get_balance_node, get_height_node]
            rw [if_neg (by omega : ¬ 1 < get_height l - r'h),
              if_pos (by simpa using hrotQ),
              if_neg (by omega : ¬ rv' < v), if_pos hvlt,
              hrot1, ok_bind]
            exact hrot2
          · intro x
            rw [hmt' x]
            exact memT_node_right_iff hmem' x
          · simp only [get_height_node] at hgt' ⊢
            omega
          · simp only [get_height_node] at hgt' ⊢
            omega
          · intro hct
            exfalso
            simp only [get_height_node] at hgt' hct
            omega
        · -- Right-Right single rotation
          obtain ⟨t', hrot, hbt', hht', hst', hmt', hgt'⟩ :=
            rebal_RR hbmid hh.2.1 hhr' hsl hsr' hgr'2
              (by rw [hbal', if_neg (by omega : ¬ v < rv')]; omega)
          have hbalne : get_balance (.node rv' r'l r'r r'h) ≠ 0 := by
            rw [hbal', if_neg (by omega : ¬ v < rv')]; omega
          rw [if_neg hbalne] at hgt'
          refine ⟨t', ?_, hbt', hht', hst', ?_, ?_, ?_, ?_⟩
          · rw [hstep, insert_rebalance.eq_def]
            simp only [get_balance_node, get_height_node]
            rw [if_neg (by omega : ¬ 1 < get_height l - r'h),
              if_pos (by simpa using hrotQ), if_pos hvgt]
            exact hrot
          · intro x
            rw [hmt' x]
            exact memT_node_right_iff hmem' x
          · simp only [get_height_node] at hgt' ⊢
            omega
          · simp only [get_height_node] at hgt' ⊢
            omega
          · intro hct
            exfalso
            simp only [get_height_node] at hgt' hct
            omega
      · -- no rotation on the way up
        have hnlt : ¬ 1 < get_height l - get_height r' := by omega
        refine ⟨.node w l r' (1 + max (get_height l) (get_height r')),
          ?_, ?_, ?_, ?_, ?_, ?_, ?_, ?_⟩
        · rw [hstep, insert_rebalance.eq_def]
          simp only [get_balance_node, get_height_node]
          rw [if_neg (by simpa using hnlt), if_neg (by simpa using hrotQ)]
        · exact isBST_node.mpr ⟨hb.1, hfvr', hb.2.2.1, hbr'⟩
        · exact heightCorrect_node.mpr ⟨rfl, hh.2.1, hhr'⟩
        · refine storedBalanced_node.mpr ⟨?_, hsl, hsr'⟩
          rw [abs_le]
          omega
        · exact memT_node_right_iff hmem'
        · simp only [get_height_node]
          omega
        · simp only [get_height_node]
          omega
        · intro hct
          refine Or.inr ⟨rfl, ?_⟩
          simp only [get_height_node, get_balance_node, val_node] at hct ⊢
          rw [if_neg (by omega : ¬ v < w)]
          omega

lemma get_min_value_node_mem {t : Tree} (ht : t ≠ .nil) :
    memT (get_min_value_node t).val t = true := by
  induction t with
  | nil => exact absurd rfl ht
  | node v l r h ihl ihr =>
    cases l with
    | nil => simp [get_min_value_node]
    | node lv ll lr lh =>
      rw [get_min_value_node, memT_node]
      exact Or.inr (Or.inl (ihl (by simp)))

lemma get_min_value_node_le {t : Tree} (hb : isBST t = true) {x : Int}
    (hx : memT x t = true) : (get_min_value_node t).val ≤ x := by
  induction t with
  | nil => simp at hx
  | node v l r h ihl ihr =>
    rw [isBST_node] at hb
    cases l with
    | nil =>
      rw [get_min_value_node]
      simp only [val_node]
      rcases memT_node.mp hx with rfl | hx' | hx'
      · exact le_refl x
      · simp at hx'
      · have := forallVals_mem hb.2.1 hx'
        simp only [decide_eq_true_eq] at this
        omega
    | node lv ll lr lh =>
      rw [get_min_value_node]
      have hmm : memT (get_min_value_node (.node lv ll lr lh)).val
          (.node lv ll lr lh) = true := get_min_value_node_mem (by simp)
      have hlt : (get_min_value_node (.node lv ll lr lh)).val < v := by
        have := forallVals_mem hb.1 hmm
        simpa using this
      rcases memT_node.mp hx with rfl | hx' | hx'
      · omega
      · exact ihl hb.2.2.1 hx'
      · have : v < x := by
          have := forallVals_mem hb.2.1 hx'
          simpa using this
        omega

lemma memT_node_left_del_iff {v w : Int} {l l' r : Tree} {h h' : Int}
    (hmem : ∀ x, memT x l' = true ↔ (memT x l = true ∧ x ≠ v))
    (hwv : v ≠ w) (hr : ∀ x, memT x r = true → x ≠ v) :
    ∀ x, memT x (.node w l' r h') = true ↔
      (memT x (.node w l r h) = true ∧ x ≠ v) := by
  intro x
  rw [memT_node, memT_node, hmem x]
  constructor
  · rintro (rfl | ⟨hx, hne⟩ | hx)
    · exact ⟨Or.inl rfl, fun he => hwv (he.symm.trans rfl)⟩
    · exact ⟨Or.inr (Or.inl hx), hne⟩
    · exact ⟨Or.inr (Or.inr hx), hr x hx⟩
  · rintro ⟨rfl | hx | hx, hne⟩
    · exact Or.inl rfl
    · exact Or.inr (Or.inl ⟨hx, hne⟩)
    · exact Or.inr (Or.inr hx)

lemma memT_node_right_del_iff {v w : Int} {l r r' : Tree} {h h' : Int}
    (hmem : ∀ x, memT x r' = true ↔ (memT x r = true ∧ x ≠ v))
    (hwv : v ≠ w) (hl : ∀ x, memT x l = true → x ≠ v) :
    ∀ x, memT x (.node w l r' h') = true ↔
      (memT x (.node w l r h) = true ∧ x ≠ v) := by
  intro x
  rw [memT_node, memT_node, hmem x]
  constructor
  · rintro (rfl | hx | ⟨hx, hne⟩)
    · exact ⟨Or.inl rfl, fun he => hwv (he.symm.trans rfl)⟩
    · exact ⟨Or.inr (Or.inl hx), hl x hx⟩
    · exact ⟨Or.inr (Or.inr hx), hne⟩
  · rintro ⟨rfl | hx | hx, hne⟩
    · exact Or.inl rfl
    · exact Or.inr (Or.inl hx)
    · exact Or.inr (Or.inr ⟨hx, hne⟩)

lemma memT_two_child_del_iff {w tv : Int} {l r r' : Tree} {h h' : Int}
    (hmem : ∀ x, memT x r' = true ↔ (memT x r = true ∧ x ≠ tv))
    (htv : memT tv r = true)
    (hl : ∀ x, memT x l = true → x < w)
    (hr : ∀ x, memT x r = true → w < x) :
    ∀ x, memT x (.node tv l r' h') = true ↔
      (memT x (.node w l r h) = true ∧ x ≠ w) := by
  intro x
  rw [memT_node, memT_node, hmem x]
  have hwtv : w < tv := hr tv htv
  constructor
  · rintro (rfl | hx | ⟨hx, hne⟩)
    · exact ⟨Or.inr (Or.inr htv), by omega⟩
    · have := hl x hx
      exact ⟨Or.inr (Or.inl hx), by omega⟩
    · have := hr x hx
      exact ⟨Or.inr (Or.inr hx), by omega⟩
  · rintro ⟨rfl | hx | hx, hne⟩
    · exact absurd rfl hne
    · exact Or.inr (Or.inl hx)
    · by_cases he : x = tv
      · exact Or.inl he
      · exact Or.inr (Or.inr ⟨hx, he⟩)

set_option maxHeartbeats 1000000 in
lemma deleteRec_ok {t : Tree} (hb : isBST t = true)
    (hh : heightCorrect t = true) (hs : storedBalanced t = true) :
    ∀ v : Int, memT v t = true →
    ∃ t', deleteRec t v = .ok t' ∧ isBST t' = true ∧ heightCorrect t' = true ∧
      storedBalanced t' = true ∧
      (∀ x, memT x t' = true ↔ (memT x t = true ∧ x ≠ v)) ∧
      get_height t - 1 ≤ get_height t' ∧ get_height t' ≤ get_height t := by
  induction t with
  | nil => intro v hm; simp at hm
  | node w l r h ihl ihr =>
    intro v hm
    rw [isBST_node] at hb
    rw [heightCorrect_node] at hh
    rw [storedBalanced_node] at hs
    obtain ⟨hbal0, hsl, hsr⟩ := hs
    rw [abs_le] at hbal0
    obtain ⟨hbal0a, hbal0b⟩ := hbal0
    have hh1 : h = 1 + max (get_height l) (get_height r) := hh.1
    have hgl : 0 ≤ get_height l := get_height_nonneg hh.2.1
    have hgr : 0 ≤ get_height r := get_height_nonneg hh.2.2
    have hlx : ∀ x, memT x l = true → x < w := fun x hx => by
      have := forallVals_mem hb.1 hx
      simpa using this
    have hrx : ∀ x, memT x r = true → w < x := fun x hx => by
      have := forallVals_mem hb.2.1 hx
      simpa using this
    rcases lt_trichotomy v w with hvw | rfl | hvw
    · -- v < w: delete in the left subtree
      have hml : memT v l = true := by
        rcases memT_node.mp hm with rfl | h' | h'
        · omega
        · exact h'
        · have := hrx v h'
          omega
      obtain ⟨l', hdel, hbl', hhl', hsl', hmem', hg1, hg2⟩ :=
        ihl hb.2.2.1 hh.2.1 hsl v hml
      have hstep : deleteRec (.node w l r h) v = delete_rebalance w l' r := by
        rw [deleteRec.eq_def]
        simp only [if_pos hvw, hdel, ok_bind]
      have hfvl' : forallVals (fun x => decide (x < w)) l' = true :=
        forallVals_of_mem fun x hx => by
          have := hlx x ((hmem' x).mp hx).1
          simpa using this
      have hrvne : ∀ x, memT x r = true → x ≠ v := fun x hx => by
        have := hrx x hx
        omega
      have hbmid : isBST (.node w l' r
          (1 + max (get_height l') (get_height r))) = true :=
        isBST_node.mpr ⟨hfvl', hb.2.1, hbl', hb.2.2.2⟩
      by_cases hrotQ : get_height l' - get_height r < -1
      · -- a right-side rotation fires
        have h2 : get_height l' - get_height r = -2 := by omega
        by_cases hrb : get_balance r ≤ 0
        · obtain ⟨t', hrot, hbt', hht', hst', hmt', hgt'⟩ :=
            rebal_RR hbmid hhl' hh.2.2 hsl' hsr h2 hrb
          refine ⟨t', ?_, hbt', hht', hst', ?_, ?_, ?_⟩
          · rw [hstep, delete_rebalance.eq_def]
            simp only [get_balance_node, get_height_node]
            split_ifs with hc1 hc2
            · exact absurd hc1 (by omega)
            · exact absurd hc1 (by omega)
            · exact hrot
          · intro x
            rw [hmt' x]
            exact memT_node_left_del_iff hmem' (by omega) hrvne x
          · simp only [get_height_node] at hgt' ⊢
            split_ifs at hgt' <;> omega
          · simp only [get_height_node] at hgt' ⊢
            split_ifs at hgt' <;> omega
        · push_neg at hrb
          obtain ⟨r2, t', hrot1, hrot2, hbt', hht', hst', hmt', hgt'⟩ :=
            @rebal_RL _ _ _ _ (1 + max (get_height l') (get_height r))
              hbmid hhl' hh.2.2 hsl' hsr h2 hrb
          refine ⟨t', ?_, hbt', hht', hst', ?_, ?_, ?_⟩
          · rw [hstep, delete_rebalance.eq_def]
            simp only [get_balance_node, get_height_node]
            split_ifs with hc1 hc2 hc3
            · exact absurd hc1 (by omega)
            · exact absurd hc1 (by omega)
            · exact absurd hc3 (by omega)
            · rw [hrot1, ok_bind]
              exact hrot2
          · intro x
            rw [hmt' x]
            exact memT_node_left_del_iff hmem' (by omega) hrvne x
          · simp only [get_height_node] at hgt' ⊢
            omega
          · simp only [get_height_node] at hgt' ⊢
            omega
      · -- no rotation
        have hn1 : ¬ 1 < get_height l' - get_height r := by omega
        refine ⟨.node w l' r (1 + max (get_height l') (get_height r)),
          ?_, hbmid, ?_, ?_, ?_, ?_, ?_⟩
        · rw [hstep, delete_rebalance.eq_def]
          simp only [get_balance_node, get_height_node]
          split_ifs
          rfl
        · exact heightCorrect_node.mpr ⟨rfl, hhl', hh.2.2⟩
        · refine storedBalanced_node.mpr ⟨?_, hsl', hsr⟩
          rw [abs_le]
          omega
        · exact memT_node_left_del_iff hmem' (by omega) hrvne
        · simp only [get_height_node]
          omega
        · simp only [get_height_node]
          omega
    · -- v = w: this node is deleted
      cases l with
      | nil =>
        have hstep : deleteRec (.node v .nil r h) v = .ok r := by
          rw [deleteRec.eq_def]
          simp only [if_neg (lt_irrefl v)]
        refine ⟨r, hstep, hb.2.2.2, hh.2.2, hsr, ?_, ?_, ?_⟩
        · intro x
          constructor
          · intro hx
            have := hrx x hx
            exact ⟨memT_node.mpr (Or.inr (Or.inr hx)), by omega⟩
          · rintro ⟨hor, hne⟩
            rcases memT_node.mp hor with rfl | hx | hx
            · exact absurd rfl hne
            · simp at hx
            · exact hx
        · simp only [get_height_nil] at hh1
          simp only [get_height_node]
          omega
        · simp only [get_height_nil] at hh1
          simp only [get_height_node]
          omega
      | node lv ll lr lh =>
        cases r with
        | nil =>
          have hstep : deleteRec (.node v (.node lv ll lr lh) .nil h) v =
              .ok (.node lv ll lr lh) := by
            rw [deleteRec.eq_def]
            simp only [if_neg (lt_irrefl v)]
          refine ⟨_, hstep, hb.2.2.1, hh.2.1, hsl, ?_, ?_, ?_⟩
          · intro x
            constructor
            · intro hx
              have := hlx x hx
              exact ⟨memT_node.mpr (Or.inr (Or.inl hx)), by omega⟩
            · rintro ⟨hor, hne⟩
              rcases memT_node.mp hor with rfl | hx | hx
              · exact absurd rfl hne
              · exact hx
              · simp at hx
          · simp only [get_height_nil] at hh1
            simp only [get_height_node] at hh1 hgl ⊢
            omega
          · simp only [get_height_nil] at hh1
            simp only [get_height_node] at hh1 hgl ⊢
            omega
        | node rv rl rr rh =>
          set tv : Int := (get_min_value_node (.node rv rl rr rh)).val with htv
          have hmemtv : memT tv (.node rv rl rr rh) = true :=
            get_min_value_node_mem (by simp)
          have htvle : ∀ x, memT x (.node rv rl rr rh) = true → tv ≤ x :=
            fun x hx => get_min_value_node_le hb.2.2.2 hx
          obtain ⟨r', hdel, hbr', hhr', hsr', hmem', hg1, hg2⟩ :=
            ihr hb.2.2.2 hh.2.2 hsr tv hmemtv
          have hstep : deleteRec
              (.node v (.node lv ll lr lh) (.node rv rl rr rh) h) v =
              delete_rebalance tv (.node lv ll lr lh) r' := by
            rw [deleteRec.eq_def]
            simp only [if_neg (lt_irrefl v), ← htv, hdel, ok_bind]
          have hwtv : v < tv := hrx tv hmemtv
          have hbmid : isBST (.node tv (.node lv ll lr lh) r'
              (1 + max (get_height (.node lv ll lr lh)) (get_height r')))
              = true := by
            refine isBST_node.mpr ⟨?_, ?_, hb.2.2.1, hbr'⟩
            · exact forallVals_of_mem fun x hx => by
                have := hlx x hx
                simp only [decide_eq_true_eq]
                omega
            · exact forallVals_of_mem fun x hx => by
                obtain ⟨hxr, hxne⟩ := (hmem' x).mp hx
                have := htvle x hxr
                simp only [decide_eq_true_eq]
                omega
          have hmemgoal := @memT_two_child_del_iff _ _ _ _ _ h
            (1 + max (get_height (.node lv ll lr lh)) (get_height r'))
            hmem' hmemtv hlx hrx
          simp only [get_height_node] at hg1 hg2 hbal0a hbal0b hh1
          have hsldec := hsl
          rw [storedBalanced_node, abs_le] at hsldec
          have hgll : 0 ≤ get_height ll := get_height_nonneg
            (heightCorrect_node.mp hh.2.1).2.1
          have hglr : 0 ≤ get_height lr := get_height_nonneg
            (heightCorrect_node.mp hh.2.1).2.2
          have hlh1 : lh = 1 + max (get_height ll) (get_height lr) :=
            (heightCorrect_node.mp hh.2.1).1
          have hgr' : 0 ≤ get_height r' := get_height_nonneg hhr'
          by_cases hrotQ : 1 < lh - get_height r'
          · -- a left-side rotation fires
            have h2 : get_height (.node lv ll lr lh) - get_height r' = 2 := by
              simp only [get_height_node]
              omega
            by_cases hlb : 0 ≤ get_balance (.node lv ll lr lh)
            · obtain ⟨t', hrot, hbt', hht', hst', hmt', hgt'⟩ :=
                rebal_LL hbmid hh.2.1 hhr' hsl hsr' h2 hlb
              simp only [get_balance_node] at hlb
              refine ⟨t', ?_, hbt', hht', hst', ?_, ?_, ?_⟩
              · rw [hstep, delete_rebalance.eq_def]
                simp only [get_balance_node, get_height_node]
                split_ifs
                exact hrot
              · intro x
                rw [hmt' x]
                exact hmemgoal x
              · simp only [get_balance_node, get_height_node] at hgt' ⊢
                split_ifs at hgt' <;> omega
              · simp only [get_balance_node, get_height_node] at hgt' ⊢
                split_ifs at hgt' <;> omega
            · push_neg at hlb
              obtain ⟨l2, t', hrot1, hrot2, hbt', hht', hst', hmt', hgt'⟩ :=
                @rebal_LR _ _ _ _ (1 + max (get_height (.node lv ll lr lh))
                  (get_height r')) hbmid hh.2.1 hhr' hsl hsr' h2 hlb
              simp only [get_balance_node] at hlb
              refine ⟨t', ?_, hbt', hht', hst', ?_, ?_, ?_⟩
              · rw [hstep, delete_rebalance.eq_def]
                simp only [get_balance_node, get_height_node]
                split_ifs with hc2
                · exact absurd hc2 (by omega)
                · rw [hrot1, ok_bind]
                  exact hrot2
              · intro x
                rw [hmt' x]
                exact hmemgoal x
              · simp only [get_height_node] at hgt' ⊢
                omega
              · simp only [get_height_node] at hgt' ⊢
                omega
          · -- no rotation
            have hn3 : ¬ lh - get_height r' < -1 := by omega
            refine ⟨.node tv (.node lv ll lr lh) r'
                (1 + max (get_height (.node lv ll lr lh)) (get_height r')),
              ?_, hbmid, ?_, ?_, ?_, ?_, ?_⟩
            · rw [hstep, delete_rebalance.eq_def]
              simp only [get_balance_node, get_height_node]
              split_ifs
              rfl
            · exact heightCorrect_node.mpr ⟨rfl, hh.2.1, hhr'⟩
            · refine storedBalanced_node.mpr ⟨?_, hsl, hsr'⟩
              rw [abs_le]
              simp only [get_height_node]
              omega
            · exact hmemgoal
            · simp only [get_height_node]
              omega
            · simp only [get_height_node]
              omega
    · -- w < v: delete in the right subtree
      have hmr : memT v r = true := by
        rcases memT_node.mp hm with rfl | h' | h'
        · omega
        · have := hlx v h'
          omega
        · exact h'
      obtain ⟨r', hdel, hbr', hhr', hsr', hmem', hg1, hg2⟩ :=
        ihr hb.2.2.2 hh.2.2 hsr v hmr
      have hstep : deleteRec (.node w l r h) v = delete_rebalance w l r' := by
        rw [deleteRec.eq_def]
        simp only [if_neg (by omega : ¬ v < w), if_pos hvw, hdel, ok_bind]
      have hfvr' : forallVals (fun x => decide (w < x)) r' = true :=
        forallVals_of_mem fun x hx => by
          have := hrx x ((hmem' x).mp hx).1
          simpa using this
      have hlvne : ∀ x, memT x l = true → x ≠ v := fun x hx => by
        have := hlx x hx
        omega
      have hbmid : isBST (.node w l r'
          (1 + max (get_height l) (get_height r'))) = true :=
        isBST_node.mpr ⟨hb.1, hfvr', hb.2.2.1, hbr'⟩
      by_cases hrotQ : 1 < get_height l - get_height r'
      · -- a left-side rotation fires
        have h2 : get_height l - get_height r' = 2 := by omega
        by_cases hlb : 0 ≤ get_balance l
        · obtain ⟨t', hrot, hbt', hht', hst', hmt', hgt'⟩ :=
            rebal_LL hbmid hh.2.1 hhr' hsl hsr' h2 hlb
          refine ⟨t', ?_, hbt', hht', hst', ?_, ?_, ?_⟩
          · rw [hstep, delete_rebalance.eq_def]
            simp only [get_balance_node, get_height_node]
            split_ifs
            exact hrot
          · intro x
            rw [hmt' x]
            exact memT_node_right_del_iff hmem' (by omega) hlvne x
          · simp only [get_height_node] at hgt' ⊢
            split_ifs at hgt' <;> omega
          · simp only [get_height_node] at hgt' ⊢
            split_ifs at hgt' <;> omega
        · push_neg at hlb
          obtain ⟨l2, t', hrot1, hrot2, hbt', hht', hst', hmt', hgt'⟩ :=
            @rebal_LR _ _ _ _ (1 + max (get_height l) (get_height r'))
              hbmid hh.2.1 hhr' hsl hsr' h2 hlb
          refine ⟨t', ?_, hbt', hht', hst', ?_, ?_, ?_⟩
          · rw [hstep, delete_rebalance.eq_def]
            simp only [get_balance_node, get_height_node]
            split_ifs with hc2
            · exact absurd hc2 (by omega)
            · rw [hrot1, ok_bind]
              exact hrot2
          · intro x
            rw [hmt' x]
            exact memT_node_right_del_iff hmem' (by omega) hlvne x
          · simp only [get_height_node] at hgt' ⊢
            omega
          · simp only [get_height_node] at hgt' ⊢
            omega
      · -- no rotation
        have hn3 : ¬ get_height l - get_height r' < -1 := by omega
        refine ⟨.node w l r' (1 + max (get_height l) (get_height r')),
          ?_, hbmid, ?_, ?_, ?_, ?_, ?_⟩
        · rw [hstep, delete_rebalance.eq_def]
          simp only [get_balance_node, get_height_node]
          split_ifs
          rfl
        · exact heightCorrect_node.mpr ⟨rfl, hh.2.1, hhr'⟩
        · refine storedBalanced_node.mpr ⟨?_, hsl, hsr'⟩
          rw [abs_le]
          omega
        · exact memT_node_right_del_iff hmem' (by omega) hlvne
        · simp only [get_height_node]
          omega
        · simp only [get_height_node]
          omega

lemma find_unbalanced_node_none_iff {t : Tree} :
    find_unbalanced_node t = none ↔ storedBalanced t = true := by
  induction t with
  | nil => simp [find_unbalanced_node]
  | node v l r h ihl ihr =>
    rcases hfl : find_unbalanced_node l with _ | m
    · rcases hfr : find_unbalanced_node r with _ | m
      · rw [find_unbalanced_node, hfl, hfr]
        dsimp only
        by_cases hc : 1 < |get_balance (.node v l r h)|
        · rw [if_pos hc]
          simp only [get_balance_node] at hc
          constructor
          · intro h'
            exact absurd h' (by simp)
          · intro hs
            rw [storedBalanced_node] at hs
            exact absurd hs.1 (not_le.mpr hc)
        · rw [if_neg hc]
          simp only [get_balance_node] at hc
          exact ⟨fun _ => storedBalanced_node.mpr
            ⟨not_lt.mp hc, ihl.mp hfl, ihr.mp hfr⟩, fun _ => rfl⟩
      · rw [find_unbalanced_node, hfl, hfr]
        dsimp only
        constructor
        · intro h'
          exact absurd h' (by simp)
        · intro hs
          rw [storedBalanced_node] at hs
          have h2 := ihr.mpr hs.2.2
          rw [hfr] at h2
          exact absurd h2 (by simp)
    · rw [find_unbalanced_node, hfl]
      dsimp only
      constructor
      · intro h'
        exact absurd h' (by simp)
      · intro hs
        rw [storedBalanced_node] at hs
        have h2 := ihl.mpr hs.2.1
        rw [hfl] at h2
        exact absurd h2 (by simp)

lemma find_unbalanced_node_eq_find? (t : Tree) :
    find_unbalanced_node t =
      (postorder_subtrees t).find? (fun n => decide (1 < |get_balance n|)) := by
  induction t with
  | nil => simp [find_unbalanced_node, postorder_subtrees]
  | node v l r h ihl ihr =>
    rw [postorder_subtrees, List.find?_append, List.find?_append, ← ihl, ← ihr]
    rcases hfl : find_unbalanced_node l with _ | m
    · rcases hfr : find_unbalanced_node r with _ | m
      · rw [find_unbalanced_node, hfl, hfr]
        dsimp only
        by_cases hc : 1 < |get_balance (.node v l r h)|
        · rw [if_pos hc]
          simp only [get_balance_node] at hc
          simp [hc]
        · rw [if_neg hc]
          simp only [get_balance_node] at hc
          simp [hc]
      · rw [find_unbalanced_node, hfl, hfr]
        dsimp only
        simp
    · rw [find_unbalanced_node, hfl]
      dsimp only
      simp

lemma find_unbalanced_node_some {t n : Tree}
    (hf : find_unbalanced_node t = some n) :
    1 < |get_balance n| ∧ storedBalanced n.left = true ∧
      storedBalanced n.right = true := by
  induction t with
  | nil => simp [find_unbalanced_node] at hf
  | node v l r h ihl ihr =>
    rcases hfl : find_unbalanced_node l with _ | m
    · rcases hfr : find_unbalanced_node r with _ | m
      · rw [find_unbalanced_node, hfl, hfr] at hf
        dsimp only at hf
        split_ifs at hf with hc
        cases hf
        exact ⟨hc, by simpa using find_unbalanced_node_none_iff.mp hfl,
          by simpa using find_unbalanced_node_none_iff.mp hfr⟩
      · rw [find_unbalanced_node, hfl, hfr] at hf
        dsimp only at hf
        cases hf
        exact ihr hfr
    · rw [find_unbalanced_node, hfl] at hf
      dsimp only at hf
      cases hf
      exact ihl hfl

lemma balance_tree_with_steps_ok {fuel : Nat} {t t' : Tree}
    (hb : balance_tree_with_steps t fuel = .ok (some t')) :
    storedBalanced t' = true := by
  induction fuel generalizing t with
  | zero => simp [balance_tree_with_steps] at hb
  | succ n ih =>
    rw [balance_tree_with_steps] at hb
    rcases hf : find_unbalanced_node t with _ | m
    · rw [hf] at hb
      dsimp only at hb
      simp only [Except.ok.injEq, Option.some.injEq] at hb
      subst hb
      exact find_unbalanced_node_none_iff.mp hf
    · rw [hf] at hb
      dsimp only at hb
      rcases hbal : balance_node_and_update_root t m with e | t2
      · rw [hbal] at hb
        simp at hb
      · rw [hbal] at hb
        simp only [ok_bind] at hb
        exact ih hb

lemma auto_step_storedBalanced {fuel : Nat} {t t' : Tree} {c : Cmd}
    (hs : storedBalanced t = true) (hstep : auto_step fuel t c = some t') :
    storedBalanced t' = true := by
  cases c with
  | add v =>
    rw [auto_step] at hstep
    split_ifs at hstep with hc
    · cases hstep; exact hs
    · rcases hrun : insert_with_auto_balance t v fuel with e | o
      · rw [hrun] at hstep; simp at hstep
      · rw [hrun] at hstep
        cases o with
        | none => simp at hstep
        | some t2 =>
          simp only [Option.some.injEq] at hstep
          subst hstep
          exact balance_tree_with_steps_ok hrun
  | del v =>
    rw [auto_step] at hstep
    split_ifs at hstep with hc
    · cases hstep; exact hs
    · rcases hrun : delete_with_auto_balance t v fuel with e | o
      · rw [hrun] at hstep; simp at hstep
      · rw [hrun] at hstep
        cases o with
        | none => simp at hstep
        | some t2 =>
          simp only [Option.some.injEq] at hstep
          subst hstep
          exact balance_tree_with_steps_ok hrun
  | rl v => cases hstep; exact hs
  | rr v => cases hstep; exact hs

lemma engine_step_inv {t : Tree}
    (hb : isBST t = true) (hh : heightCorrect t = true)
    (hs : storedBalanced t = true) (op : EngineOp) :
    isBST (engine_step t op) = true ∧
      heightCorrect (engine_step t op) = true ∧
      storedBalanced (engine_step t op) = true := by
  cases op with
  | ins v =>
    by_cases hm : memT v t = true
    · rw [engine_step, insertRec_dup hb hm]
      exact ⟨hb, hh, hs⟩
    · rw [Bool.not_eq_true] at hm
      obtain ⟨t', ht', hb', hh', hs', -⟩ := insertRec_ok hb hh hs hm
      rw [engine_step, ht']
      exact ⟨hb', hh', hs'⟩
  | del v =>
    by_cases hm : memT v t = true
    · obtain ⟨t', ht', hb', hh', hs', -⟩ := deleteRec_ok hb hh hs v hm
      rw [engine_step, ht']
      exact ⟨hb', hh', hs'⟩
    · rw [Bool.not_eq_true] at hm
      rw [engine_step, deleteRec_notFound hm]
      exact ⟨hb, hh, hs⟩

lemma engine_foldl_inv {t : Tree}
    (hb : isBST t = true) (hh : heightCorrect t = true)
    (hs : storedBalanced t = true) (ops : List EngineOp) :
    isBST (ops.foldl engine_step t) = true ∧
      heightCorrect (ops.foldl engine_step t) = true ∧
      storedBalanced (ops.foldl engine_step t) = true := by
  induction ops generalizing t with
  | nil => exact ⟨hb, hh, hs⟩
  | cons op ops ih =>
    obtain ⟨hb', hh', hs'⟩ := engine_step_inv hb hh hs op
    exact ih hb' hh' hs'

lemma engine_run_inv (ops : List EngineOp) :
    isBST (engine_run ops) = true ∧
      heightCorrect (engine_run ops) = true ∧
      storedBalanced (engine_run ops) = true :=
  @engine_foldl_inv .nil rfl rfl rfl ops

lemma search_posHeights {t n : Tree} {v : Int}
    (hs : search t v = some n) (hp : posHeights t = true) :
    posHeights n = true := by
  induction t with
  | nil => simp [search] at hs
  | node w l r h ihl ihr =>
    rw [posHeights_node] at hp
    rw [search] at hs
    split_ifs at hs with h1 h2
    · cases hs
      rw [posHeights_node]
      exact hp
    · exact ihl hs hp.2.1
    · exact ihr hs hp.2.2

lemma update_all_heights_heightCorrect (t : Tree) :
    heightCorrect (update_all_heights t) = true := by
  induction t with
  | nil => rfl
  | node v l r h ihl ihr =>
    show heightCorrect (.node v (update_all_heights l) (update_all_heights r)
      (1 + max (get_height (update_all_heights l))
        (get_height (update_all_heights r)))) = true
    rw [heightCorrect_node]
    exact ⟨rfl, ihl, ihr⟩

lemma search_path {t n : Tree} {v : Int} (hs : search t v = some n) :
    ∃ p, path_to_value t v = some p ∧ subtree_at t p = some n := by
  induction t with
  | nil => simp [search] at hs
  | node w l r h ihl ihr =>
    rw [search] at hs
    rw [path_to_value]
    split_ifs at hs with h1 h2
    · cases hs
      exact ⟨[], by rw [if_pos h1], rfl⟩
    · obtain ⟨p, hp1, hp2⟩ := ihl hs
      refine ⟨.left :: p, ?_, hp2⟩
      rw [if_neg h1, if_pos h2, hp1]
      rfl
    · obtain ⟨p, hp1, hp2⟩ := ihr hs
      refine ⟨.right :: p, ?_, hp2⟩
      rw [if_neg h1, if_neg h2, hp1]
      rfl

lemma relink_by_descent_eq_replace_at {n rotated : Tree} (hn : n ≠ .nil) :
    ∀ {t : Tree} {p : List Dir}, isBST t = true →
      path_to_value t n.val = some p → subtree_at t p = some n → t ≠ n →
      relink_by_descent t n rotated = replace_at t p rotated := by
  intro t
  induction t with
  | nil =>
    intro p _ hp _ _
    rw [path_to_value] at hp
    exact absurd hp (by simp)
  | node w l r h ihl ihr =>
    intro p hb hp hsub hne
    rw [isBST_node] at hb
    rw [path_to_value] at hp
    by_cases h1 : w = n.val
    · rw [if_pos h1] at hp
      simp only [Option.some.injEq] at hp
      subst hp
      have heq : Tree.node w l r h = n := by simpa [subtree_at] using hsub
      exact absurd heq hne
    · rw [if_neg h1] at hp
      by_cases h2 : n.val < w
      · rw [if_pos h2] at hp
        rcases hpl : path_to_value l n.val with _ | p'
        · rw [hpl] at hp
          exact absurd hp (by simp)
        · rw [hpl] at hp
          simp only [Option.map_some', Option.some.injEq] at hp
          subst hp
          have hsub' : subtree_at l p' = some n := hsub
          by_cases hln : l = n
          · have hp0 : p' = [] := by
              rw [hln] at hpl
              cases n with
              | nil => exact absurd rfl hn
              | node nv nl nr nh =>
                rw [path_to_value] at hpl
                simp at hpl
                exact hpl
            subst hp0
            simp [relink_by_descent, replace_at, h2, hln]
          · have hlnil : l ≠ .nil := by
              intro he
              rw [he, path_to_value] at hpl
              exact absurd hpl (by simp)
            have hih := ihl hb.2.2.1 hpl hsub' hln
            have hguard : ¬(l = n ∨ l = Tree.nil) := by tauto
            simp [relink_by_descent, replace_at, h2, hguard, hih]
      · rw [if_neg h2] at hp
        rcases hpr : path_to_value r n.val with _ | p'
        · rw [hpr] at hp
          exact absurd hp (by simp)
        · rw [hpr] at hp
          simp only [Option.map_some', Option.some.injEq] at hp
          subst hp
          have hsub' : subtree_at r p' = some n := hsub
          have hln : l ≠ n := by
            intro he
            have hm : memT n.val l = true := by
              rw [he]
              exact memT_val hn
            have hlt := forallVals_mem hb.1 hm
            simp only [decide_eq_true_eq] at hlt
            exact h2 (by omega)
          by_cases hrn : r = n
          · have hp0 : p' = [] := by
              rw [hrn] at hpr
              cases n with
              | nil => exact absurd rfl hn
              | node nv nl nr nh =>
                rw [path_to_value] at hpr
                simp at hpr
                exact hpr
            subst hp0
            simp [relink_by_descent, replace_at, h2, hrn, hln]
          · have hrnil : r ≠ .nil := by
              intro he
              rw [he, path_to_value] at hpr
              exact absurd hpr (by simp)
            have hih := ihr hb.2.2.2 hpr hsub' hrn
            have hguard : ¬(r = n ∨ r = Tree.nil) := by tauto
            simp [relink_by_descent, replace_at, h2, hguard, hih]

lemma left_rotate_ok_of_right_pos {t : Tree} (h : 0 < get_height t.right) :
    ∃ t', left_rotate t = .ok t' := by
  cases t with
  | nil => simp [Tree.right] at h
  | node v l r hh =>
    simp only [right_node] at h
    obtain ⟨a, b, c, d, rfl⟩ := exists_node_of_height_pos h
    exact ⟨_, rfl⟩

lemma right_rotate_ok_of_left_pos {t : Tree} (h : 0 < get_height t.left) :
    ∃ t', right_rotate t = .ok t' := by
  cases t with
  | nil => simp [Tree.left] at h
  | node v l r hh =>
    simp only [left_node] at h
    obtain ⟨a, b, c, d, rfl⟩ := exists_node_of_height_pos h
    exact ⟨_, rfl⟩

lemma balance_node_ok {t : Tree} (hp : posHeights t = true) :
    ∃ t', balance_node t = .ok t' := by
  cases t with
  | nil => exact ⟨.nil, rfl⟩
  | node v l r h =>
    rw [posHeights_node] at hp
    obtain ⟨h1, hpl, hpr⟩ := hp
    have hln : 0 ≤ get_height l := posHeights_height_nonneg hpl
    have hrn : 0 ≤ get_height r := posHeights_height_nonneg hpr
    simp only [balance_node, get_balance_node]
    by_cases hb1 : 1 < get_height l - get_height r
    · rw [if_pos hb1]
      have hl0 : 0 < get_height l := by omega
      obtain ⟨lv, ll, lr, lh, rfl⟩ := exists_node_of_height_pos hl0
      simp only [get_balance_node]
      by_cases hb2 : get_height ll - get_height lr < 0
      · rw [if_pos hb2]
        have hlln : 0 ≤ get_height ll :=
          posHeights_height_nonneg (posHeights_node.mp hpl).2.1
        have hlr0 : 0 < get_height lr := by omega
        obtain ⟨a, b, c, d, rfl⟩ := exists_node_of_height_pos hlr0
        exact ⟨_, rfl⟩
      · rw [if_neg hb2]
        exact ⟨_, rfl⟩
    · rw [if_neg hb1]
      by_cases hb3 : get_height l - get_height r < -1
      · rw [if_pos hb3]
        have hr0 : 0 < get_height r := by omega
        obtain ⟨rv, rl, rr, rh, rfl⟩ := exists_node_of_height_pos hr0
        simp only [get_balance_node]
        by_cases hb4 : 0 < get_height rl - get_height rr
        · rw [if_pos hb4]
          have hrrn : 0 ≤ get_height rr :=
            posHeights_height_nonneg (posHeights_node.mp hpr).2.2
          have hrl0 : 0 < get_height rl := by omega
          obtain ⟨a, b, c, d, rfl⟩ := exists_node_of_height_pos hrl0
          exact ⟨_, rfl⟩
        · rw [if_neg hb4]
          exact ⟨_, rfl⟩
      · rw [if_neg hb3]
        exact ⟨_, rfl⟩

lemma find_unbalanced_ancestor_sign {t target a : Tree} {dir : Dir}
    (hf : find_unbalanced_ancestor_needing_rotation t target dir = some a) :
    (dir = .left ∧ get_balance target < 0) ∨
      (dir = .right ∧ 0 < get_balance target) := by
  induction t with
  | nil => simp [find_unbalanced_ancestor_needing_rotation] at hf
  | node v l r h ihl ihr =>
    rw [find_unbalanced_ancestor_needing_rotation] at hf
    simp only [get_balance_node] at hf
    split_ifs at hf
    · rename_i hc1 hd1
      obtain ⟨-, hdir, hlt⟩ := hc1
      subst hlt
      exact Or.inl ⟨hdir, hd1⟩
    · rename_i hc2 hd2
      obtain ⟨-, hdir, hrt⟩ := hc2
      subst hrt
      exact Or.inr ⟨hdir, hd2⟩
    · exact ihl hf
    · exact ihr hf

lemma is_rotation_needed_rotate_ok {t n : Tree} {v : Int} {dir : Dir}
    (hp : posHeights t = true) (hsearch : search t v = some n)
    (hneed : is_rotation_needed t v dir = true) :
    ∃ rot, rotate_dir dir n = .ok rot := by
  have hpn : posHeights n = true := search_posHeights hsearch hp
  rw [is_rotation_needed, hsearch] at hneed
  dsimp only at hneed
  split_ifs at hneed with h1 h2
  · obtain ⟨hb, hdir⟩ := h1
    subst hdir
    cases n with
    | nil => simp at hb
    | node nv nl nr nh =>
      rw [posHeights_node] at hpn
      have hrn : 0 ≤ get_height nr := posHeights_height_nonneg hpn.2.2
      simp only [get_balance_node] at hb
      exact right_rotate_ok_of_left_pos (by simp only [left_node]; omega)
  · obtain ⟨hb, hdir⟩ := h2
    subst hdir
    cases n with
    | nil => simp at hb
    | node nv nl nr nh =>
      rw [posHeights_node] at hpn
      have hln : 0 ≤ get_height nl := posHeights_height_nonneg hpn.2.1
      simp only [get_balance_node] at hb
      exact left_rotate_ok_of_right_pos (by simp only [right_node]; omega)
  · rw [Option.isSome_iff_exists] at hneed
    obtain ⟨a, ha⟩ := hneed
    rcases find_unbalanced_ancestor_sign ha with ⟨hdir, hbal⟩ | ⟨hdir, hbal⟩
    · subst hdir
      cases n with
      | nil => simp at hbal
      | node nv nl nr nh =>
        rw [posHeights_node] at hpn
        have hln : 0 ≤ get_height nl := posHeights_height_nonneg hpn.2.1
        simp only [get_balance_node] at hbal
        exact left_rotate_ok_of_right_pos (by simp only [right_node]; omega)
    · subst hdir
      cases n with
      | nil => simp at hbal
      | node nv nl nr nh =>
        rw [posHeights_node] at hpn
        have hrn : 0 ≤ get_height nr := posHeights_height_nonneg hpn.2.2
        simp only [get_balance_node] at hbal
        exact right_rotate_ok_of_left_pos (by simp only [left_node]; omega)

/-- C1: Refuted for the CLI's automatic mode: after processing the command
sequence `c1cmds` the tree is structurally unbalanced (`shapeBalanced` is
`false`; the root's subtrees differ in structural height by two) even
though every balance factor computed from the stored heights is within one
(`storedBalanced` is `true`) — the stale stored heights (`heightCorrect`
is `false`) mask the violation, so the balancing loop stops early with an
unbalanced tree. -/
theorem C1_auto_mode_leaves_unbalanced_tree :
    (auto_run 20 .nil c1cmds).map
        (fun t =>
          (heightCorrect t, storedBalanced t, shapeBalanced t, isBST t)) =
      some (false, true, false, true) := by decide

/-- C2: Refuted: the automatic-mode command sequence `c2cmds` (inserting
2, 1, 3, 4, 5) ends with a tree whose root stores height 4 where
`1 + max(height(left), height(right))` is 3 — `heightCorrect` is
`false`, because the balancing loop never recomputes ancestor heights
after a rotation. -/
theorem C2_stale_stored_heights :
    auto_run 20 .nil c2cmds =
      some (.node 2 (.node 1 .nil .nil 1)
        (.node 4 (.node 3 .nil .nil 1) (.node 5 .nil .nil 1) 2) 4) ∧
    heightCorrect (.node 2 (.node 1 .nil .nil 1)
        (.node 4 (.node 3 .nil .nil 1) (.node 5 .nil .nil 1) 2) 4) =
      false := by decide

/-- C3: Refuted: on the same nine insertions the CLI's automatic-mode path
and the engine's single-pass rebalancing produce different trees (CLI root
4, engine root 6). -/
theorem C3_cli_and_engine_diverge :
    auto_run 20 .nil c3cmds ≠ some (engine_run (c3vals.map EngineOp.ins)) ∧
    (auto_run 20 .nil c3cmds).map Tree.val = some 4 ∧
    (engine_run (c3vals.map EngineOp.ins)).val = 6 := by decide

/-- C4: For every sequence of inserts into an initially empty engine tree
(each successful insert mutates the tree; a duplicate raises and leaves it
unchanged), `inorder` lists exactly the values present in the tree, in
strictly increasing order — the sorted sequence of present values. -/
theorem C4_inorder_sorted_present_values (vs : List Int) :
    List.Sorted (fun a b : Int => a < b)
      (inorder (engine_run (vs.map EngineOp.ins))) ∧
    ∀ x : Int, x ∈ inorder (engine_run (vs.map EngineOp.ins)) ↔
      memT x (engine_run (vs.map EngineOp.ins)) = true := by
  obtain ⟨hb, -, -⟩ := engine_run_inv (vs.map EngineOp.ins)
  exact ⟨isBST_inorder_sorted hb, fun x => mem_inorder⟩

/-- C5: Inserting a value already present in a BST-ordered tree fails with
the duplicate-value error, and the tree is exactly unchanged: the raising
`_insert` call never mutated a node, so the engine keeps the old root. -/
theorem C5_duplicate_insert_fails_unchanged {t : Tree} {v : Int}
    (hb : isBST t = true) (hm : memT v t = true) :
    insertRec t v = .error .dup ∧ engine_step t (.ins v) = t := by
  have h := insertRec_dup hb hm
  refine ⟨h, ?_⟩
  rw [engine_step, h]

/-- Witness for C5 at the one-node tree holding 10. -/
theorem C5_witness :
    insertRec (.node 10 .nil .nil 1) 10 = .error .dup ∧
      engine_step (.node 10 .nil .nil 1) (.ins 10) = .node 10 .nil .nil 1 :=
  C5_duplicate_insert_fails_unchanged (by decide) (by decide)

/-- C6: Deleting a value absent from the tree (the empty tree included)
fails with the not-found error, the error reaches the caller (`deleteRec`
returns it), and the tree is structurally unchanged. -/
theorem C6_delete_absent_fails_unchanged {t : Tree} {v : Int}
    (hm : memT v t = false) :
    deleteRec t v = .error .notFound ∧ engine_step t (.del v) = t := by
  have h := deleteRec_notFound hm
  refine ⟨h, ?_⟩
  rw [engine_step, h]

/-- Witness for C6 on the empty tree and on a one-node tree. -/
theorem C6_witness :
    (deleteRec .nil 7 = .error .notFound ∧
      engine_step .nil (.del 7) = .nil) ∧
    (deleteRec (.node 10 .nil .nil 1) 3 = .error .notFound ∧
      engine_step (.node 10 .nil .nil 1) (.del 3) = .node 10 .nil .nil 1) :=
  ⟨C6_delete_absent_fails_unchanged (by decide),
   C6_delete_absent_fails_unchanged (by decide)⟩

/-- C7 (amended): `_find_unbalanced_node` returns the first node in
post-order (left subtree, right subtree, node) whose balance factor from
stored heights has absolute value greater than one, and returns `none`
exactly when every node is balanced.  The original claim's further
assertion — that the returned node is always the deepest unbalanced node —
is refuted by `C7_counterexample`. -/
theorem C7_first_postorder_unbalanced (t : Tree) :
    find_unbalanced_node t =
      (postorder_subtrees t).find? (fun n => decide (1 < |get_balance n|)) ∧
    (find_unbalanced_node t = none ↔ storedBalanced t = true) :=
  ⟨find_unbalanced_node_eq_find? t, find_unbalanced_node_none_iff⟩

/-- C7 counterexample: in the height-correct BST `ex7` the function
returns the node with value 3, which sits at depth 1, while the unbalanced
node with value 14 sits at depth 3 — the returned node is not the deepest
unbalanced node. -/
theorem C7_counterexample :
    heightCorrect ex7 = true ∧ isBST ex7 = true ∧
    (find_unbalanced_node ex7).map Tree.val = some 3 ∧
    ((subtree_depths ex7 0).filter
        (fun p => decide (1 < |get_balance p.1|))).map
        (fun p => (p.1.val, p.2)) =
      [(10, 0), (3, 1), (20, 1), (12, 2), (14, 3)] := by decide

/-- C8: An accepted manual rotation on a non-root node re-links the
rotated subtree's new root exactly into the parent slot that held the old
node (the parent found by value descent, the slot picked by equality
against the old node): the result equals `replace_at` at the node's search
path.  And after any completed practice-mode rotation, root or not, every
node of the resulting tree satisfies the height equation. -/
theorem C8_manual_rotation_relink_and_heights :
    (∀ t n rot : Tree, ∀ v : Int, ∀ dir : Dir, ∀ p : List Dir,
      isBST t = true → search t v = some n → t ≠ n →
      rotate_dir dir n = .ok rot → path_to_value t v = some p →
      subtree_at t p = some n ∧
        rotate_node_and_update_parent t n dir =
          .ok (replace_at t p rot)) ∧
    (∀ t t' : Tree, ∀ v : Int, ∀ dir : Dir,
      practice_rotate t v dir = .ok t' →
      t' = t ∨ heightCorrect t' = true) := by
  constructor
  · intro t n rot v dir p hb hsearch hne hrot hp
    obtain ⟨hval, hnnil⟩ := search_some_val hsearch
    obtain ⟨p2, hp2, hsub2⟩ := search_path hsearch
    rw [hp] at hp2
    simp only [Option.some.injEq] at hp2
    subst hp2
    have hrel : relink_by_descent t n rot = replace_at t p rot :=
      relink_by_descent_eq_replace_at hnnil hb (by rw [hval]; exact hp)
        hsub2 hne
    refine ⟨hsub2, ?_⟩
    simp only [rotate_node_and_update_parent]
    rw [hrot, ok_bind, hrel]
  · intro t t' v dir hstep
    rw [practice_rotate] at hstep
    rcases hs : search t v with _ | nn
    · rw [hs] at hstep
      dsimp only at hstep
      exact Or.inl (Except.ok.inj hstep).symm
    · rw [hs] at hstep
      dsimp only at hstep
      split_ifs at hstep with hneed heq
      · rcases hrot : rotate_dir dir nn with e | t2
        · rw [hrot] at hstep
          simp only [error_bind] at hstep
          exact absurd hstep (by simp)
        · rw [hrot] at hstep
          simp only [ok_bind, Except.ok.injEq] at hstep
          subst hstep
          exact Or.inr (update_all_heights_heightCorrect t2)
      · rcases hrot : rotate_node_and_update_parent t nn dir with e | t2
        · rw [hrot] at hstep
          simp only [error_bind] at hstep
          exact absurd hstep (by simp)
        · rw [hrot] at hstep
          simp only [ok_bind, Except.ok.injEq] at hstep
          subst hstep
          exact Or.inr (update_all_heights_heightCorrect t2)
      · exact Or.inl (Except.ok.inj hstep).symm

/-- Witness for C8: the left rotation at value 3 of `exC8` (a non-root
node) lands in the root's left slot, and the validated practice rotation
at value 3 of `ex7` yields a height-correct tree. -/
theorem C8_witness :
    (subtree_at exC8 [Dir.left] = some exC8n ∧
      rotate_node_and_update_parent exC8 exC8n Dir.left =
        .ok (replace_at exC8 [Dir.left] exC8rot)) ∧
    (ex7rot = ex7 ∨ heightCorrect ex7rot = true) :=
  ⟨C8_manual_rotation_relink_and_heights.1 exC8 exC8n exC8rot 3 Dir.left
      [Dir.left] (by decide) (by decide) (by decide) rfl (by decide),
   C8_manual_rotation_relink_and_heights.2 ex7 ex7rot 3 Dir.left rfl⟩

/-- C9: Practice-mode gating: while the tree holds an unbalanced node, an
`a` or `d` command is rejected and leaves the tree unchanged; any accepted
command that does change an unbalanced tree is a rotation approved by
`_is_rotation_needed`; and on a balanced tree a fresh-value insert and a
present-value delete are accepted again. -/
theorem C9_practice_mode_gating :
    (∀ t : Tree, ∀ v : Int, (find_unbalanced_node t).isSome = true →
      practice_step t (.add v) = .ok t ∧
        practice_step t (.del v) = .ok t) ∧
    (∀ t t' : Tree, ∀ c : Cmd, (find_unbalanced_node t).isSome = true →
      practice_step t c = .ok t' → t' ≠ t →
      (∃ v, c = .rl v ∧ is_rotation_needed t v .left = true) ∨
        (∃ v, c = .rr v ∧ is_rotation_needed t v .right = true)) ∧
    (∀ t : Tree, ∀ v : Int, find_unbalanced_node t = none →
      (search t v = none →
        practice_step t (.add v) = .ok (insert_manual t v)) ∧
      ((search t v).isSome = true →
        practice_step t (.del v) = .ok (delete_manual t v))) := by
  refine ⟨?_, ?_, ?_⟩
  · intro t v hunb
    constructor
    · rw [practice_step]
      split_ifs with h1
      · rfl
      · rfl
    · rw [practice_step]
      split_ifs with h1
      · rfl
      · rfl
  · intro t t' c hunb hstep hne
    cases c with
    | add v =>
      rw [practice_step] at hstep
      split_ifs at hstep with h1
      · exact absurd (Except.ok.inj hstep).symm hne
      · exact absurd (Except.ok.inj hstep).symm hne
    | del v =>
      rw [practice_step] at hstep
      split_ifs at hstep with h1
      · exact absurd (Except.ok.inj hstep).symm hne
      · exact absurd (Except.ok.inj hstep).symm hne
    | rl v =>
      left
      refine ⟨v, rfl, ?_⟩
      rw [practice_step, practice_rotate] at hstep
      rcases hs : search t v with _ | nn
      · rw [hs] at hstep
        dsimp only at hstep
        exact absurd (Except.ok.inj hstep).symm hne
      · rw [hs] at hstep
        dsimp only at hstep
        by_cases hneed : is_rotation_needed t v .left = true
        · exact hneed
        · rw [if_neg hneed] at hstep
          exact absurd (Except.ok.inj hstep).symm hne
    | rr v =>
      right
      refine ⟨v, rfl, ?_⟩
      rw [practice_step, practice_rotate] at hstep
      rcases hs : search t v with _ | nn
      · rw [hs] at hstep
        dsimp only at hstep
        exact absurd (Except.ok.inj hstep).symm hne
      · rw [hs] at hstep
        dsimp only at hstep
        by_cases hneed : is_rotation_needed t v .right = true
        · exact hneed
        · rw [if_neg hneed] at hstep
          exact absurd (Except.ok.inj hstep).symm hne
  · intro t v hbal
    constructor
    · intro hs
      rw [practice_step, hs, hbal]
      rfl
    · intro hs
      obtain ⟨nn, hnn⟩ := Option.isSome_iff_exists.mp hs
      rw [practice_step, hnn, hbal]
      rfl

/-- Witness for C9: the unbalanced chain `tUnb` rejects insert and delete,
while the balanced `exC8` accepts a fresh insert and a present delete. -/
theorem C9_witness :
    (practice_step tUnb (.add 7) = .ok tUnb ∧
      practice_step tUnb (.del 7) = .ok tUnb) ∧
    practice_step exC8 (.add 7) = .ok (insert_manual exC8 7) ∧
    practice_step exC8 (.del 3) = .ok (delete_manual exC8 3) :=
  ⟨C9_practice_mode_gating.1 tUnb 7 (by decide),
   (C9_practice_mode_gating.2.2 exC8 7 (by decide)).1 (by decide),
   (C9_practice_mode_gating.2.2 exC8 3 (by decide)).2 (by decide)⟩

/-- C10: The rotation primitives are partial — a left rotation
dereferences the right child and a right rotation the left child, raising
when it is absent — yet each internal caller's precondition makes the
missing-child case unreachable: on valid engine trees insert and delete
never surface the attribute error, the automatic-mode balancing step
`balance_node` always succeeds when stored heights are positive, and a
practice rotation approved by `_is_rotation_needed` always succeeds. -/
theorem C10_rotations_partial_but_internally_safe :
    (∀ z : Tree, z.right = .nil → left_rotate z = .error .attrError) ∧
    (∀ z : Tree, z.left = .nil → right_rotate z = .error .attrError) ∧
    (∀ t : Tree, ∀ v : Int, isBST t = true → heightCorrect t = true →
      storedBalanced t = true →
      insertRec t v ≠ .error .attrError ∧
        deleteRec t v ≠ .error .attrError) ∧
    (∀ t : Tree, posHeights t = true → ∀ e : Err,
      balance_node t ≠ .error e) ∧
    (∀ t n : Tree, ∀ v : Int, ∀ dir : Dir, posHeights t = true →
      search t v = some n → is_rotation_needed t v dir = true →
      ∀ e : Err, rotate_dir dir n ≠ .error e) := by
  refine ⟨?_, ?_, ?_, ?_, ?_⟩
  · intro z hz
    cases z with
    | nil => rfl
    | node v l r h =>
      simp only [right_node] at hz
      subst hz
      rfl
  · intro z hz
    cases z with
    | nil => rfl
    | node v l r h =>
      simp only [left_node] at hz
      subst hz
      rfl
  · intro t v hb hh hs
    constructor
    · by_cases hm : memT v t = true
      · rw [insertRec_dup hb hm]
        simp
      · rw [Bool.not_eq_true] at hm
        obtain ⟨t', ht', -⟩ := insertRec_ok hb hh hs hm
        rw [ht']
        simp
    · by_cases hm : memT v t = true
      · obtain ⟨t', ht', -⟩ := deleteRec_ok hb hh hs v hm
        rw [ht']
        simp
      · rw [Bool.not_eq_true] at hm
        rw [deleteRec_notFound hm]
        simp
  · intro t hp e
    obtain ⟨t', ht'⟩ := balance_node_ok hp
    rw [ht']
    simp
  · intro t n v dir hp hsearch hneed e
    obtain ⟨rot, hrot⟩ := is_rotation_needed_rotate_ok hp hsearch hneed
    rw [hrot]
    simp

/-- Witness for C10: both failing rotations on a leaf, safe insert and
delete on a valid one-node tree, a safe balancing step on `tUnb`, and the
safe validated rotation on `ex7`. -/
theorem C10_witness :
    left_rotate (.node 1 .nil .nil 1) = .error .attrError ∧
    right_rotate (.node 1 .nil .nil 1) = .error .attrError ∧
    insertRec (.node 5 .nil .nil 1) 3 ≠ .error .attrError ∧
    deleteRec (.node 5 .nil .nil 1) 5 ≠ .error .attrError ∧
    balance_node tUnb ≠ .error .attrError ∧
    rotate_dir .left ex7n ≠ .error .attrError :=
  ⟨C10_rotations_partial_but_internally_safe.1 (.node 1 .nil .nil 1) rfl,
   C10_rotations_partial_but_internally_safe.2.1 (.node 1 .nil .nil 1) rfl,
   (C10_rotations_partial_but_internally_safe.2.2.1 (.node 5 .nil .nil 1) 3
      (by decide) (by decide) (by decide)).1,
   (C10_rotations_partial_but_internally_safe.2.2.1 (.node 5 .nil .nil 1) 5
      (by decide) (by decide) (by decide)).2,
   C10_rotations_partial_but_internally_safe.2.2.2.1 tUnb (by decide)
     .attrError,
   C10_rotations_partial_but_internally_safe.2.2.2.2 ex7 ex7n 3 .left
     (by decide) (by decide) (by decide) .attrError⟩

end AVLTreeCLI
